import Mathlib

/-!
# Verification of the ctools LSP transport core (`src/api/lsp.py`)

Shallow embedding of the JSON-RPC framing and dispatch engine:

* `RPCMessage` (`to_bytes`, `from_bytes`, the message constructors),
* `Stream` (`put`, `get_content`) with its buffer-retention behaviour,
* `StandardIO` (`request`, `cancel_request`, `handle_received_message`),
* `LSPClient.get_request_id`.

Byte strings are modelled as `List Char`, one `Char` per byte.  All wire
content produced by the encoder is ASCII (Python `json.dumps` runs with
`ensure_ascii=True`), so UTF-8 encoding is the identity on it and byte
length equals character count; theorems about arbitrary inbound bytes carry
an explicit all-ASCII hypothesis where the Python code would UTF-8-decode.

The Python standard-library `json` module (not part of the repository) is
modelled executably: `dumpsV` mirrors `json.dumps` with its default
separators `", "`/`": "` and `ensure_ascii=True`; `loads` mirrors
`json.loads` for the float-free fragment of JSON (JSON numbers are embedded
as integers; floating-point payloads are outside the embedding's domain, as
is any string containing a lone UTF-16 surrogate, which a Lean `Char`
cannot represent).
-/

/-! ## JSON values -/

/-- JSON values (float-free fragment).  Objects are insertion-ordered key
value lists, mirroring Python dicts. -/
inductive Json where
  | null : Json
  | bool (b : Bool) : Json
  | num (n : Int) : Json
  | str (s : List Char) : Json
  | arr (elems : List Json) : Json
  | obj (fields : List (List Char × Json)) : Json
deriving Repr

mutual

/-- Boolean equality on JSON values (Python `==` on the corresponding
parsed values). -/
def jeq : Json → Json → Bool
  | .null, .null => true
  | .bool a, .bool b => a = b
  | .num a, .num b => a = b
  | .str a, .str b => a = b
  | .arr a, .arr b => jeqL a b
  | .obj a, .obj b => jeqF a b
  | _, _ => false

def jeqL : List Json → List Json → Bool
  | [], [] => true
  | a :: as, b :: bs => jeq a b && jeqL as bs
  | _, _ => false

def jeqF : List (List Char × Json) → List (List Char × Json) → Bool
  | [], [] => true
  | (k, v) :: as, (k', v') :: bs => decide (k = k') && jeq v v' && jeqF as bs
  | _, _ => false

end

mutual

theorem jeq_iff : ∀ (a b : Json), jeq a b = true ↔ a = b
  | .null, b => by cases b <;> simp [jeq]
  | .bool a, b => by cases b <;> simp [jeq]
  | .num a, b => by cases b <;> simp [jeq]
  | .str a, b => by cases b <;> simp [jeq]
  | .arr as, b => by
      cases b <;> simp [jeq]
      exact jeqL_iff as _
  | .obj as, b => by
      cases b <;> simp [jeq]
      exact jeqF_iff as _

theorem jeqL_iff : ∀ (a b : List Json), jeqL a b = true ↔ a = b
  | [], b => by cases b <;> simp [jeqL]
  | a :: as, [] => by simp [jeqL]
  | a :: as, b :: bs => by
      simp [jeqL, jeq_iff a b, jeqL_iff as bs]

theorem jeqF_iff : ∀ (a b : List (List Char × Json)), jeqF a b = true ↔ a = b
  | [], b => by cases b <;> simp [jeqF]
  | a :: as, [] => by cases a; simp [jeqF]
  | (k, v) :: as, (k', v') :: bs => by
      simp [jeqF, jeq_iff v v', jeqF_iff as bs, Prod.ext_iff]
      try tauto

end

instance : DecidableEq Json := fun a b => decidable_of_iff _ (jeq_iff a b)

/-- Python dict `d[k] = v`: update the value in place if the key exists
(keeping its position), otherwise append the pair at the end. -/
def objSet (kvs : List (List Char × Json)) (k : List Char) (v : Json) :
    List (List Char × Json) :=
  match kvs with
  | [] => [(k, v)]
  | (k', v') :: rest =>
      if k' = k then (k', v) :: rest else (k', v') :: objSet rest k v

/-- Python dict `d.get(k)` / `d[k]` lookup on an insertion-ordered list:
first matching key wins (keys are unique in any list built via `objSet`). -/
def jlookup (kvs : List (List Char × Json)) (k : List Char) : Option Json :=
  match kvs with
  | [] => none
  | (k', v) :: rest => if k' = k then some v else jlookup rest k

/-- `k` occurs among the keys of `kvs`. -/
def keyMem (k : List Char) (kvs : List (List Char × Json)) : Bool :=
  kvs.any (fun p => decide (p.1 = k))

/-- Python dict construction from a pair list (`json.loads` object
semantics): later duplicate keys overwrite earlier ones in place. -/
def dictFromPairs (pairs : List (List Char × Json)) : List (List Char × Json) :=
  pairs.foldl (fun acc p => objSet acc p.1 p.2) []

mutual

/-- Well-formedness: every object in the value has pairwise-distinct keys.
Values decoded from JSON text and Python dicts always satisfy this. -/
def wfJson : Json → Bool
  | .null => true
  | .bool _ => true
  | .num _ => true
  | .str _ => true
  | .arr es => wfList es
  | .obj kvs => nodupKeys kvs && wfFields kvs

def wfList : List Json → Bool
  | [] => true
  | e :: es => wfJson e && wfList es

def wfFields : List (List Char × Json) → Bool
  | [] => true
  | (_, v) :: rest => wfJson v && wfFields rest

def nodupKeys : List (List Char × Json) → Bool
  | [] => true
  | (k, _) :: rest => !keyMem k rest && nodupKeys rest

end

/-! ## Character classes and small scanners -/

/-- JSON whitespace (Python `json` skips exactly space, tab, newline,
carriage return between tokens). -/
def isWs (c : Char) : Bool :=
  c = ' ' || c = '\t' || c = '\n' || c = '\r'

/-- ASCII decimal digit. -/
def isDig (c : Char) : Bool :=
  48 ≤ c.toNat && c.toNat ≤ 57

/-- Drop leading JSON whitespace. -/
def skipWs (s : List Char) : List Char :=
  s.dropWhile isWs

/-- Boolean list-prefix test (by decidable equality on characters). -/
def leadsWith : List Char → List Char → Bool
  | [], _ => true
  | _ :: _, [] => false
  | p :: ps, c :: cs => decide (p = c) && leadsWith ps cs

/-- Numeric value of a digit string, most significant digit first
(Python `int(...)` on an all-digit string). -/
def valDigits (ds : List Char) : Nat :=
  ds.foldl (fun a c => a * 10 + (c.toNat - 48)) 0

/-- Split a list at the first position where `ds` stops being all digits:
returns the maximal digit run and the remainder. -/
def spanDigits (s : List Char) : List Char × List Char :=
  (s.takeWhile isDig, s.dropWhile isDig)

/-- Decimal digit character. -/
def digitChar : Nat → Char
  | 0 => '0' | 1 => '1' | 2 => '2' | 3 => '3' | 4 => '4'
  | 5 => '5' | 6 => '6' | 7 => '7' | 8 => '8' | _ => '9'

/-- Fuel-indexed digit emitter; the fuel only bounds the recursion depth
(one division by ten per step), it never shows in the output. -/
def dumpNatAux : Nat → Nat → List Char
  | 0, _ => []
  | fuel + 1, n =>
      if n < 10 then [digitChar n]
      else dumpNatAux fuel (n / 10) ++ [digitChar (n % 10)]

/-- Decimal representation of a natural number (Python `repr` of an int). -/
def dumpNat (n : Nat) : List Char :=
  dumpNatAux (n + 1) n

/-- Decimal representation of an integer, `-` sign for negatives. -/
def dumpInt (n : Int) : List Char :=
  if n < 0 then '-' :: dumpNat n.natAbs else dumpNat n.natAbs

/-- Lowercase hexadecimal digit character (as in Python's `\uXXXX`
escapes). -/
def hexDig : Nat → Char
  | 0 => '0' | 1 => '1' | 2 => '2' | 3 => '3' | 4 => '4'
  | 5 => '5' | 6 => '6' | 7 => '7' | 8 => '8' | 9 => '9'
  | 10 => 'a' | 11 => 'b' | 12 => 'c' | 13 => 'd' | 14 => 'e' | _ => 'f'

/-- Numeric value of a hexadecimal digit character (case-insensitive);
`16` marks a non-hex character. -/
def hexVal (c : Char) : Nat :=
  if 48 ≤ c.toNat ∧ c.toNat ≤ 57 then c.toNat - 48
  else if 97 ≤ c.toNat ∧ c.toNat ≤ 102 then c.toNat - 87
  else if 65 ≤ c.toNat ∧ c.toNat ≤ 70 then c.toNat - 55
  else 16

/-- Four lowercase hex digits for a code unit below `0x10000`. -/
def hex4 (n : Nat) : List Char :=
  [hexDig (n / 4096 % 16), hexDig (n / 256 % 16),
   hexDig (n / 16 % 16), hexDig (n % 16)]

/-! ## `json.dumps` model (`ensure_ascii=True`, default separators) -/

/-- `\uXXXX` escape (or surrogate pair for code points above `0xFFFF`),
exactly as Python's ASCII-only string encoder emits it. -/
def uEsc (n : Nat) : List Char :=
  if n < 65536 then '\\' :: 'u' :: hex4 n
  else
    let v := n - 65536
    ('\\' :: 'u' :: hex4 (55296 + v / 1024)) ++ ('\\' :: 'u' :: hex4 (56320 + v % 1024))

/-- Escape one character as Python's `py_encode_basestring_ascii` does:
`"` and `\` get backslash escapes, the five named control escapes are used,
every other character outside printable ASCII `0x20`–`0x7e` becomes
`\uXXXX` (with surrogate pairs above the BMP). -/
def escChar (c : Char) : List Char :=
  if c = '"' then ['\\', '"']
  else if c = '\\' then ['\\', '\\']
  else if c = '\n' then ['\\', 'n']
  else if c = '\r' then ['\\', 'r']
  else if c = '\t' then ['\\', 't']
  else if c.toNat = 8 then ['\\', 'b']
  else if c.toNat = 12 then ['\\', 'f']
  else if c.toNat < 32 ∨ 126 < c.toNat then uEsc c.toNat
  else [c]

/-- Escape a whole string body (no surrounding quotes). -/
def escStr : List Char → List Char
  | [] => []
  | c :: cs => escChar c ++ escStr cs

mutual

/-- `json.dumps` with default separators `", "` and `": "` and
`ensure_ascii=True`; output is always printable ASCII. -/
def dumpsV : Json → List Char
  | .null => 'n' :: ['u', 'l', 'l']
  | .bool true => 't' :: ['r', 'u', 'e']
  | .bool false => 'f' :: ['a', 'l', 's', 'e']
  | .num n => dumpInt n
  | .str s => '"' :: escStr s ++ ['"']
  | .arr es => '[' :: dumpsArr es ++ [']']
  | .obj kvs => '{' :: dumpsObj kvs ++ ['}']

def dumpsArr : List Json → List Char
  | [] => []
  | [e] => dumpsV e
  | e :: es => dumpsV e ++ ',' :: ' ' :: dumpsArr es

def dumpsObj : List (List Char × Json) → List Char
  | [] => []
  | [(k, v)] => '"' :: escStr k ++ '"' :: ':' :: ' ' :: dumpsV v
  | (k, v) :: kvs =>
      '"' :: escStr k ++ '"' :: ':' :: ' ' :: dumpsV v ++ ',' :: ' ' :: dumpsObj kvs

end

/-! ## `json.loads` model -/

/-- Build a character from a code point, refusing surrogate range and
out-of-range values (Python would build a lone-surrogate `str`; such
strings are outside this embedding's domain). -/
def mkChar (u : Nat) : Option Char :=
  if _h : u.isValidChar then some (Char.ofNat u) else none

/-- Decode one backslash escape (the input starts just after the
backslash): named escapes, `\uXXXX`, and surrogate pairs, as Python's
strict scanner accepts them.  Returns the decoded character and the
remaining input. -/
def escStep : List Char → Option (Char × List Char)
  | [] => none
  | e :: rest2 =>
    if e = '"' then some ('"', rest2)
    else if e = '\\' then some ('\\', rest2)
    else if e = '/' then some ('/', rest2)
    else if e = 'b' then some (Char.ofNat 8, rest2)
    else if e = 'f' then some (Char.ofNat 12, rest2)
    else if e = 'n' then some ('\n', rest2)
    else if e = 'r' then some ('\r', rest2)
    else if e = 't' then some ('\t', rest2)
    else if e = 'u' then
      match rest2 with
      | a :: b :: c' :: d :: rest3 =>
        if hexVal a < 16 ∧ hexVal b < 16 ∧ hexVal c' < 16 ∧ hexVal d < 16 then
          let u := hexVal a * 4096 + hexVal b * 256 + hexVal c' * 16 + hexVal d
          if 55296 ≤ u ∧ u < 56320 then
            (match rest3 with
            | '\\' :: 'u' :: a2 :: b2 :: c2 :: d2 :: rest5 =>
              if hexVal a2 < 16 ∧ hexVal b2 < 16 ∧ hexVal c2 < 16 ∧ hexVal d2 < 16 then
                let lo := hexVal a2 * 4096 + hexVal b2 * 256 + hexVal c2 * 16 + hexVal d2
                if 56320 ≤ lo ∧ lo < 57344 then
                  (mkChar (65536 + (u - 55296) * 1024 + (lo - 56320))).map
                    (fun ch => (ch, rest5))
                else none
              else none
            | _ => none)
          else (mkChar u).map (fun ch => (ch, rest3))
        else none
      | _ => none
    else none

/-- Parse a JSON string body after the opening quote, up to and including
the closing quote (fuel-indexed loop; any fuel above the input length is
enough); rejects raw control characters, as Python's strict scanner
does. -/
def parseStrBody : Nat → List Char → Option (List Char × List Char)
  | 0, _ => none
  | fuel + 1, s =>
    match s with
    | [] => none
    | c :: rest =>
      if c = '"' then some ([], rest)
      else if c = '\\' then
        match escStep rest with
        | none => none
        | some (ch, rest') => (parseStrBody fuel rest').map (fun p => (ch :: p.1, p.2))
      else if c.toNat < 32 then none
      else (parseStrBody fuel rest).map (fun p => (c :: p.1, p.2))

/-- Parse a JSON string body after the opening quote (self-fueled). -/
def parseStr (s : List Char) : Option (List Char × List Char) :=
  parseStrBody (s.length + 1) s

/-- Parse a JSON integer: optional sign, a digit run with no leading zero
(strict JSON grammar; fractional and exponent parts are outside the
float-free fragment). -/
def parseNum (s : List Char) : Option (Json × List Char) :=
  let neg : Bool := decide (s.head? = some '-')
  let s1 := if neg then s.tail else s
  let ds := (spanDigits s1).1
  let rest := (spanDigits s1).2
  if ds = [] then none
  else if 1 < ds.length ∧ ds.head? = some '0' then none
  else
    let v : Int := (valDigits ds : Int)
    some (.num (if neg then -v else v), rest)

mutual

/-- Recursive-descent JSON value parser (fuel-indexed); mirrors Python's
`json.loads` on the float-free fragment: skips whitespace, then dispatches
on the first character. -/
def parseValue : Nat → List Char → Option (Json × List Char)
  | 0, _ => none
  | fuel + 1, s =>
    match skipWs s with
    | [] => none
    | c :: rest =>
      if c = '{' then
        let r2 := skipWs rest
        if r2.head? = some '}' then some (.obj [], r2.tail)
        else (parseFields fuel r2).map (fun p => (.obj (dictFromPairs p.1), p.2))
      else if c = '[' then
        let r2 := skipWs rest
        if r2.head? = some ']' then some (.arr [], r2.tail)
        else (parseElems fuel r2).map (fun p => (.arr p.1, p.2))
      else if c = '"' then
        (parseStr rest).map (fun p => (.str p.1, p.2))
      else if c = 't' then
        if leadsWith ['r', 'u', 'e'] rest then some (.bool true, rest.drop 3) else none
      else if c = 'f' then
        if leadsWith ['a', 'l', 's', 'e'] rest then some (.bool false, rest.drop 4) else none
      else if c = 'n' then
        if leadsWith ['u', 'l', 'l'] rest then some (.null, rest.drop 3) else none
      else if c = '-' || isDig c then parseNum (c :: rest)
      else none

/-- Parse the elements of a non-empty array, consuming the closing `]`. -/
def parseElems : Nat → List Char → Option (List Json × List Char)
  | 0, _ => none
  | fuel + 1, s =>
    match parseValue fuel s with
    | none => none
    | some (v, r) =>
      let r1 := skipWs r
      if r1.head? = some ',' then
        (parseElems fuel r1.tail).map (fun p => (v :: p.1, p.2))
      else if r1.head? = some ']' then some ([v], r1.tail)
      else none

/-- Parse the fields of a non-empty object, consuming the closing `}`;
returns the raw pair list in document order (duplicate handling is applied
by the caller via `dictFromPairs`). -/
def parseFields : Nat → List Char → Option (List (List Char × Json) × List Char)
  | 0, _ =>  none
  | fuel + 1, s =>
    let s1 := skipWs s
    if s1.head? = some '"' then
      match parseStr s1.tail with
      | none => none
      | some (k, r1) =>
        let r2 := skipWs r1
        if r2.head? = some ':' then
          match parseValue fuel r2.tail with
          | none => none
          | some (v, r3) =>
            let r4 := skipWs r3
            if r4.head? = some ',' then
              (parseFields fuel r4.tail).map (fun p => ((k, v) :: p.1, p.2))
            else if r4.head? = some '}' then some ([(k, v)], r4.tail)
            else none
        else none
    else none

end

/-- `json.loads`: parse one value, then require only whitespace to remain
("Extra data" error otherwise).  The fuel `s.length + 1` dominates the
recursion depth of any value the text can denote. -/
def loads (s : List Char) : Option Json :=
  match parseValue (s.length + 1) s with
  | some (v, r) => if skipWs r = [] then some v else none
  | none => none

/-! ## Wire framing (`RPCMessage.to_bytes` / `RPCMessage.from_bytes`) -/

/-- The header/body separator `b"\r\n\r\n"`. -/
def sepL : List Char := ['\r', '\n', '\r', '\n']

/-- The literal `"Content-Length: "`. -/
def clPre : List Char :=
  ['C', 'o', 'n', 't', 'e', 'n', 't', '-', 'L', 'e', 'n', 'g', 't', 'h', ':', ' ']

/-- Index of the first occurrence of `sepL` (Python `bytes.index`,
`None` standing for the `ValueError` on absence). -/
def firstOcc : List Char → Option Nat
  | [] => none
  | c :: t =>
      if leadsWith sepL (c :: t) then some 0 else (firstOcc t).map (· + 1)

/-- Fuel-indexed splitter; each step consumes at least the four separator
characters, so any fuel above the input length is enough. -/
def splitFrameSepAux : Nat → List Char → List (List Char)
  | 0, xs => [xs]
  | fuel + 1, xs =>
      match firstOcc xs with
      | none => [xs]
      | some k => xs.take k :: splitFrameSepAux fuel (xs.drop (k + 4))

/-- Python `bytes.split(b"\r\n\r\n")`: split at every non-overlapping
occurrence of the separator, left to right. -/
def splitFrameSep (xs : List Char) : List (List Char) :=
  splitFrameSepAux (xs.length + 1) xs

/-- Split a string at every `'\n'` (for the `re.MULTILINE` line anchors). -/
def splitLines : List Char → List (List Char)
  | [] => [[]]
  | c :: t =>
      if c = '\n' then [] :: splitLines t
      else
        match splitLines t with
        | [] => [[c]]
        | l :: ls => (c :: l) :: ls

/-- One line matches `^Content-Length: (\d+)$` exactly when it is the
literal prefix followed by a non-empty digit run reaching the line end
(backtracking over `(\d+)` cannot help, since a shorter run leaves a digit
where `$` must match). -/
def clLine (l : List Char) : Option Nat :=
  if leadsWith clPre l then
    let ds := l.drop clPre.length
    if ds ≠ [] ∧ ds.all isDig then some (valDigits ds) else none
  else none

/-- `re.search(r"^Content-Length: (\d+)$", s, re.MULTILINE)` followed by
`int(...)` on the captured group: value from the first matching line. -/
def searchCL (s : List Char) : Option Nat :=
  (splitLines s).findSome? clLine

/-- All characters are ASCII; `bytes.decode("ascii")` succeeds exactly on
such byte strings (and is then the identity in this model). -/
def asciiOnly (xs : List Char) : Bool :=
  xs.all (fun c => c.toNat < 128)

/-- An `RPCMessage` is a Python dict with string keys: an
insertion-ordered key-value list. -/
abbrev RPCMsg := List (List Char × Json)

/-- The key `"jsonrpc"`. -/
def jsonrpcKey : List Char := ['j', 's', 'o', 'n', 'r', 'p', 'c']

/-- The key `"id"`. -/
def idKey : List Char := ['i', 'd']

/-- The key `"method"`. -/
def methodKey : List Char := ['m', 'e', 't', 'h', 'o', 'd']

/-- The key `"params"`. -/
def paramsKey : List Char := ['p', 'a', 'r', 'a', 'm', 's']

/-- The key `"result"`. -/
def resultKey : List Char := ['r', 'e', 's', 'u', 'l', 't']

/-- The key `"error"`. -/
def errorKey : List Char := ['e', 'r', 'r', 'o', 'r']

/-- The version string `"2.0"` (`RPCMessage.JSONRPC_VERSION`). -/
def verStr : List Char := ['2', '.', '0']

/-- The method name `"$/cancelRequest"`. -/
def cancelMethod : List Char :=
  ['$', '/', 'c', 'a', 'n', 'c', 'e', 'l', 'R', 'e', 'q', 'u', 'e', 's', 't']

namespace RPCMessage

/-- `RPCMessage.to_bytes`: set `self["jsonrpc"] = "2.0"`, dump the dict to
JSON, and join `Content-Length: <byte length>` with the body via
`b"\r\n\r\n"`. -/
def to_bytes (m : RPCMsg) : List Char :=
  let m' := objSet m jsonrpcKey (.str verStr)
  let content := dumpsV (.obj m')
  (clPre ++ dumpNat content.length) ++ sepL ++ content

/-- Error outcomes of `RPCMessage.from_bytes`: `invalidMessage`,
`contentIncomplete` and `contentOverflow` are the module's exception
classes; `valueError` stands for the plain `ValueError` (or
`UnicodeDecodeError`) that escapes uncaught from the header handling. -/
inductive DecodeErr where
  | invalidMessage
  | contentIncomplete
  | contentOverflow
  | valueError
deriving DecidableEq, Repr

/-- `RPCMessage.from_bytes`: split on the separator (anything but exactly
two parts is an unpacking `ValueError`, re-raised as `InvalidMessage`);
ASCII-decode the header and extract `Content-Length` (failures escape as
plain `ValueError`); compare the declared and actual body lengths; then
JSON-parse the body and check `jsonrpc == "2.0"` (any failure there is
`InvalidMessage`).  No further shape validation is performed. -/
def from_bytes (b : List Char) : Except DecodeErr RPCMsg :=
  match splitFrameSep b with
  | [header, content] =>
      if asciiOnly header then
        match searchCL header with
        | none => .error .valueError
        | some defined_length =>
            if content.length < defined_length then .error .contentIncomplete
            else if defined_length < content.length then .error .contentOverflow
            else
              match loads content with
              | some (.obj kvs) =>
                  if jlookup kvs jsonrpcKey = some (.str verStr) then .ok kvs
                  else .error .invalidMessage
              | _ => .error .invalidMessage
      else .error .valueError
  | _ => .error .invalidMessage

/-- `RPCMessage.notification`. -/
def notification (method : Json) (params : Json) : RPCMsg :=
  [(methodKey, method), (paramsKey, params)]

/-- `RPCMessage.request`. -/
def request (id_ : Json) (method : Json) (params : Json) : RPCMsg :=
  [(idKey, id_), (methodKey, method), (paramsKey, params)]

/-- `RPCMessage.response`: start from `{"id": id_}` and add `result` /
`error` only when the corresponding argument is not `None`. -/
def response (id_ : Json) (result : Option Json) (error : Option Json) : RPCMsg :=
  let c : RPCMsg := [(idKey, id_)]
  let c := match result with
    | some r => objSet c resultKey r
    | none => c
  match error with
  | some e => objSet c errorKey e
  | none => c

/-- `RPCMessage.cancel_request`. -/
def cancel_request (id_ : Json) : RPCMsg :=
  [(methodKey, .str cancelMethod), (paramsKey, .obj [(idKey, id_)])]

end RPCMessage

/-! ## `Stream` (incremental frame decoder) -/

/-- `Stream` state: the list of byte chunks accumulated via `put`. -/
structure StreamSt where
  buffer : List (List Char)
deriving DecidableEq, Repr

/-- Outcome of one `Stream.get_content` call: the returned body bytes, or
the raised exception (`EOFError`, `InvalidMessage`, `ContentIncomplete`). -/
inductive GetResult where
  | ok (content : List Char)
  | eofError
  | invalidMessage
  | contentIncomplete
deriving DecidableEq, Repr

namespace StreamSt

/-- `Stream.put`: append a chunk to the buffer list. -/
def put (s : StreamSt) (data : List Char) : StreamSt :=
  ⟨s.buffer ++ [data]⟩

/-- `Stream.get_content`: join the buffer; empty → `EOFError` (state
untouched); no `\r\n\r\n` or no parseable `Content-Length` in the header →
`InvalidMessage` with the buffer discarded; body shorter than declared →
`ContentIncomplete` with the buffer left exactly as it was; otherwise
return the declared number of body bytes and retain everything beyond them
as the new buffer. -/
def get_content (s : StreamSt) : GetResult × StreamSt :=
  let buffers := s.buffer.flatten
  if buffers = [] then (.eofError, s)
  else
    match firstOcc buffers with
    | none => (.invalidMessage, ⟨[]⟩)
    | some header_end =>
        let headerB := buffers.take header_end
        if asciiOnly headerB then
          match searchCL headerB with
          | none => (.invalidMessage, ⟨[]⟩)
          | some content_length =>
              let start_index := header_end + 4
              let end_index := start_index + content_length
              let content := (buffers.drop start_index).take content_length
              if content.length < content_length then (.contentIncomplete, s)
              else (.ok content, ⟨[buffers.drop end_index]⟩)
        else (.invalidMessage, ⟨[]⟩)

/-- Deliver a frame in pieces: `put` each piece, call `get_content` after
each `put`, and treat `ContentIncomplete` (and `EOFError`, for an
empty-so-far buffer) as wait-for-more while pieces remain.  Any other
outcome — a decoded body or a fatal error — is final. -/
def feed (s : StreamSt) : List (List Char) → GetResult × StreamSt
  | [] => (.eofError, s)
  | p :: rest =>
      let r := (s.put p).get_content
      match rest with
      | [] => r
      | _ :: _ =>
          match r with
          | (.contentIncomplete, s') => feed s' rest
          | (.eofError, s') => feed s' rest
          | other => other

end StreamSt

/-! ## `StandardIO` transport (request correlation and dispatch) -/

/-- Python dict lookup with `Json` keys (first match; keys are unique). -/
def jdictGet {α : Type} (m : List (Json × α)) (k : Json) : Option α :=
  match m with
  | [] => none
  | (k', v) :: rest => if k' = k then some v else jdictGet rest k

/-- Python dict `m[k] = v` with `Json` keys. -/
def jdictSet {α : Type} (m : List (Json × α)) (k : Json) (v : α) : List (Json × α) :=
  match m with
  | [] => [(k, v)]
  | (k', v') :: rest =>
      if k' = k then (k', v) :: rest else (k', v') :: jdictSet rest k v

/-- Python dict `m.pop(k)` with `Json` keys: the removed value and the
remaining dict, or `None` for the `KeyError` case (no mutation then). -/
def jdictPop (m : List (Json × Json)) (k : Json) : Option (Json × List (Json × Json)) :=
  match m with
  | [] => none
  | (k', v) :: rest =>
      if k' = k then some (v, rest)
      else (jdictPop rest k).map (fun p => (p.1, (k', v) :: p.2))

/-- Python `dict.get(k)` on a message, with `None` (= JSON `null`) as the
default for a missing key — exactly `message.get(k)` under the
JSON-to-Python value correspondence. -/
def jget (msg : RPCMsg) (k : List Char) : Json :=
  (jlookup msg k).getD .null

/-- Python truthiness of a JSON-decoded value (`not method` in the
dispatcher): `None`, `False`, `0`, `""`, `[]`, `{}` are falsy. -/
def jsonFalsy : Json → Bool
  | .null => true
  | .bool b => !b
  | .num n => n = 0
  | .str s => s.isEmpty
  | .arr es => es.isEmpty
  | .obj kvs => kvs.isEmpty

/-- State of a `StandardIO` transport (the model omits the subprocess and
thread handles): the Command Dispatcher `command_map` (handlers abstract,
of type `H`) and the Request Table `request_map`. -/
structure StdIOSt (H : Type) where
  command_map : List (Json × H)
  request_map : List (Json × Json)

namespace StdIOSt

/-- `StandardIO.register_command`. -/
def register_command {H : Type} (st : StdIOSt H) (method : List Char) (handler : H) :
    StdIOSt H :=
  { st with command_map := jdictSet st.command_map (.str method) handler }

/-- `StandardIO.request`: store `id → method` in the request map, then
send the message; `none` models the `KeyError` when the message lacks
`id` or `method`.  Returns the new state and the message written to the
server's stdin. -/
def request {H : Type} (st : StdIOSt H) (message : RPCMsg) :
    Option (StdIOSt H × RPCMsg) :=
  match jlookup message idKey, jlookup message methodKey with
  | some i, some m =>
      some ({ st with request_map := jdictSet st.request_map i m }, message)
  | _, _ => none

/-- The cancellation notifications sent by `StandardIO.cancel_request`,
one per pending entry, in table order. -/
def sendCancels : List (Json × Json) → List RPCMsg
  | [] => []
  | (request_id, _) :: rest => RPCMessage.cancel_request request_id :: sendCancels rest

/-- `StandardIO.cancel_request`: takes no request id — it sends a
`$/cancelRequest` notification for every pending entry of the request map
and then replaces the map with `{}`.  Returns the sent messages and the
new state. -/
def cancel_request {H : Type} (st : StdIOSt H) : List RPCMsg × StdIOSt H :=
  (sendCancels st.request_map, { st with request_map := [] })

/-- Dispatch failures in `handle_received_message`, both raised as
`ValueError` by the source: a response id absent from the request map, or
a method without a registered handler.  The accompanying state is the
transport state at the raise point (the request-map pop is not rolled
back). -/
inductive DispatchErr where
  | invalidResponse
  | methodNotFound
deriving DecidableEq, Repr

/-- `StandardIO.handle_received_message`: if the message's `method` is
falsy, recover the method by popping the message's `id` from the request
map; then look up the handler for the method and invoke it on the full
message.  Returns the invoked handler, its argument and the new state. -/
def handle_received_message {H : Type} (st : StdIOSt H) (message : RPCMsg) :
    Except (DispatchErr × StdIOSt H) (H × RPCMsg × StdIOSt H) :=
  let method := jget message methodKey
  let message_id := jget message idKey
  if jsonFalsy method then
    match jdictPop st.request_map message_id with
    | none => .error (.invalidResponse, st)
    | some (m, rm) =>
        match jdictGet st.command_map m with
        | none => .error (.methodNotFound, { st with request_map := rm })
        | some handler => .ok (handler, message, { st with request_map := rm })
  else
    match jdictGet st.command_map method with
    | none => .error (.methodNotFound, st)
    | some handler => .ok (handler, message, st)

end StdIOSt

/-! ## `LSPClient` (request-id counter) -/

/-- The plain-data fields of `LSPClient` (the transport handle and server
capabilities are external objects outside the pure model). -/
structure LSPClientSt where
  server_running : Bool
  is_initialized : Bool
  request_id : Nat
  active_document : List Char
  source : List Char
  document_version_map : List (List Char × Nat)
deriving DecidableEq, Repr

namespace LSPClientSt

/-- The field values set by `LSPClient.__init__` (and re-set by
`reset_session`): in particular `request_id = 0`. -/
def initial : LSPClientSt :=
  { server_running := false
    is_initialized := false
    request_id := 0
    active_document := []
    source := []
    document_version_map := [] }

/-- `LSPClient.reset_session` (the transport termination side effect is
external to the model). -/
def reset_session (_c : LSPClientSt) : LSPClientSt :=
  initial

/-- `LSPClient.get_request_id`: `self.request_id += 1; return
self.request_id`. -/
def get_request_id (c : LSPClientSt) : Nat × LSPClientSt :=
  (c.request_id + 1, { c with request_id := c.request_id + 1 })

/-- The client state after `n` successive `get_request_id` calls. -/
def afterCalls : Nat → LSPClientSt
  | 0 => initial
  | n + 1 => (get_request_id (afterCalls n)).2

end LSPClientSt

/-! ## Measures for the parser proofs -/

/-- The remainder after a dumped number must not begin with a digit for
the maximal-run scan to stop exactly at the boundary; in serialized JSON
the next character is always a delimiter. -/
def delimOk (s : List Char) : Bool :=
  match s with
  | [] => true
  | c :: _ => !isDig c

mutual

/-- Fuel lower bound for `parseValue` to parse a serialized value. -/
def jsizeV : Json → Nat
  | .arr [] => 1
  | .arr es => 1 + jsizeE es
  | .obj [] => 1
  | .obj kvs => 1 + jsizeF kvs
  | _ => 1

/-- Fuel lower bound for `parseElems` on a non-empty serialized tail. -/
def jsizeE : List Json → Nat
  | [] => 0
  | e :: es => 1 + jsizeV e + jsizeE es

/-- Fuel lower bound for `parseFields` on a non-empty serialized tail. -/
def jsizeF : List (List Char × Json) → Nat
  | [] => 0
  | (_, v) :: kvs => 1 + jsizeV v + jsizeF kvs

end

/-! # Theorems

Helper lemmas first, then one theorem (plus witness or counterexample)
per specification claim. -/

/-! ## Prefix and occurrence lemmas -/

theorem leadsWith_append (p t : List Char) : leadsWith p (p ++ t) = true := by
  induction p with
  | nil => rfl
  | cons c cs ih => simp [leadsWith, ih]

theorem leadsWith_ex {p s : List Char} (h : leadsWith p s = true) :
    s = p ++ s.drop p.length := by
  induction p generalizing s with
  | nil => simp
  | cons c cs ih =>
      cases s with
      | nil => simp [leadsWith] at h
      | cons d ds =>
          simp [leadsWith] at h
          obtain ⟨rfl, h2⟩ := h
          simpa using ih h2

theorem leadsWith_sepL_false {c : Char} (t : List Char) (hc : c ≠ '\r') :
    leadsWith sepL (c :: t) = false := by
  simp [sepL, leadsWith]
  intro h
  exact absurd h.symm hc

theorem firstOcc_noCR {xs : List Char} (h : '\r' ∉ xs) : firstOcc xs = none := by
  induction xs with
  | nil => rfl
  | cons c t ih =>
      have hc : c ≠ '\r' := fun e => h (e ▸ List.mem_cons_self c t)
      have ht : '\r' ∉ t := fun e => h (List.mem_cons_of_mem c e)
      simp [firstOcc, leadsWith_sepL_false t hc, ih ht]

theorem firstOcc_boundary {a : List Char} (ha : '\r' ∉ a) (b : List Char) :
    firstOcc (a ++ sepL ++ b) = some a.length := by
  induction a with
  | nil =>
      show firstOcc (sepL ++ b) = some 0
      have : leadsWith sepL (sepL ++ b) = true := leadsWith_append sepL b
      simp [sepL, firstOcc] at this ⊢
      simp [this]
  | cons c t ih =>
      have hc : c ≠ '\r' := fun e => ha (e ▸ List.mem_cons_self c t)
      have ht : '\r' ∉ t := fun e => ha (List.mem_cons_of_mem c e)
      have : (c :: t) ++ sepL ++ b = c :: (t ++ sepL ++ b) := by simp
      rw [this]
      simp [firstOcc, leadsWith_sepL_false _ hc]
      rw [← List.append_assoc]
      exact ih ht

theorem firstOcc_some_ne_nil {xs : List Char} {k : Nat} (h : firstOcc xs = some k) :
    xs ≠ [] := by
  intro e
  subst e
  simp [firstOcc] at h

theorem splitFrameSepAux_congr :
    ∀ (len : Nat) (xs : List Char), xs.length ≤ len →
    ∀ fuel1 fuel2, xs.length < fuel1 → xs.length < fuel2 →
    splitFrameSepAux fuel1 xs = splitFrameSepAux fuel2 xs := by
  intro len
  induction len with
  | zero =>
      intro xs hlen fuel1 fuel2 h1 h2
      have hx : xs = [] := by
        cases xs with
        | nil => rfl
        | cons c t => simp at hlen
      subst hx
      cases fuel1 with
      | zero => omega
      | succ f1 =>
          cases fuel2 with
          | zero => omega
          | succ f2 => simp [splitFrameSepAux, firstOcc]
  | succ n ih =>
      intro xs hlen fuel1 fuel2 h1 h2
      cases fuel1 with
      | zero => omega
      | succ f1 =>
          cases fuel2 with
          | zero => omega
          | succ f2 =>
              cases hocc : firstOcc xs with
              | none => simp [splitFrameSepAux, hocc]
              | some k =>
                  have hne : xs ≠ [] := firstOcc_some_ne_nil hocc
                  have hpos : 0 < xs.length := List.length_pos.mpr hne
                  have hdl : (xs.drop (k + 4)).length = xs.length - (k + 4) :=
                    List.length_drop _ _
                  have hn : (xs.drop (k + 4)).length ≤ n := by omega
                  simp only [splitFrameSepAux, hocc]
                  rw [ih (xs.drop (k + 4)) hn f1 f2 (by omega) (by omega)]

theorem splitFrameSep_eq_none {xs : List Char} (hocc : firstOcc xs = none) :
    splitFrameSep xs = [xs] := by
  show splitFrameSepAux (xs.length + 1) xs = _
  simp [splitFrameSepAux, hocc]

theorem splitFrameSep_eq_some {xs : List Char} {k : Nat} (hocc : firstOcc xs = some k) :
    splitFrameSep xs = xs.take k :: splitFrameSep (xs.drop (k + 4)) := by
  have hne : xs ≠ [] := firstOcc_some_ne_nil hocc
  have hpos : 0 < xs.length := List.length_pos.mpr hne
  have hdl : (xs.drop (k + 4)).length = xs.length - (k + 4) := List.length_drop _ _
  show splitFrameSepAux (xs.length + 1) xs = _
  simp only [splitFrameSepAux, hocc]
  rw [splitFrameSepAux_congr (xs.drop (k + 4)).length (xs.drop (k + 4)) le_rfl
    xs.length ((xs.drop (k + 4)).length + 1) (by omega) (by omega)]
  rfl

theorem splitFrameSep_frame {h c : List Char} (hh : '\r' ∉ h) (hc : '\r' ∉ c) :
    splitFrameSep (h ++ sepL ++ c) = [h, c] := by
  rw [splitFrameSep_eq_some (firstOcc_boundary hh c)]
  have e1 : (h ++ sepL ++ c).take h.length = h := by
    rw [List.append_assoc, List.take_left]
  have e2 : (h ++ sepL ++ c).drop (h.length + 4) = c := by
    rw [List.append_assoc]
    simp [sepL]
  rw [e1, e2, splitFrameSep_eq_none (firstOcc_noCR hc)]

/-! ## Digit-string lemmas -/

theorem digitChar_toNat {d : Nat} (h : d < 10) : (digitChar d).toNat = 48 + d := by
  interval_cases d <;> rfl

theorem isDig_digitChar (d : Nat) : isDig (digitChar d) = true := by
  unfold digitChar
  split <;> rfl

theorem dumpNatAux_congr :
    ∀ (len n fuel1 fuel2 : Nat), n ≤ len → n < fuel1 → n < fuel2 →
    dumpNatAux fuel1 n = dumpNatAux fuel2 n := by
  intro len
  induction len with
  | zero =>
      intro n f1 f2 hn h1 h2
      have hz : n = 0 := by omega
      subst hz
      cases f1 with
      | zero => omega
      | succ g1 =>
          cases f2 with
          | zero => omega
          | succ g2 => simp [dumpNatAux]
  | succ L ih =>
      intro n f1 f2 hn h1 h2
      cases f1 with
      | zero => omega
      | succ g1 =>
          cases f2 with
          | zero => omega
          | succ g2 =>
              by_cases h10 : n < 10
              · simp [dumpNatAux, h10]
              · simp only [dumpNatAux, if_neg h10]
                rw [ih (n / 10) g1 g2 (by omega) (by omega) (by omega)]

theorem dumpNat_eq (n : Nat) :
    dumpNat n =
      if n < 10 then [digitChar n] else dumpNat (n / 10) ++ [digitChar (n % 10)] := by
  show dumpNatAux (n + 1) n = _
  by_cases h10 : n < 10
  · simp [dumpNatAux, h10]
  · simp only [dumpNatAux, if_neg h10]
    rw [dumpNatAux_congr n (n / 10) n (n / 10 + 1) (by omega) (by omega) (by omega)]
    rfl

theorem dumpNat_ne_nil (n : Nat) : dumpNat n ≠ [] := by
  rw [dumpNat_eq]
  split <;> simp

theorem dumpNat_all_dig (n : Nat) : ∀ c ∈ dumpNat n, isDig c = true := by
  induction n using Nat.strong_induction_on with
  | _ n ih =>
      rw [dumpNat_eq]
      by_cases h10 : n < 10
      · simp only [if_pos h10]
        intro c hc
        rw [List.mem_singleton.mp hc]
        exact isDig_digitChar n
      · simp only [if_neg h10]
        intro c hc
        rcases List.mem_append.mp hc with h | h
        · exact ih (n / 10) (by omega) c h
        · rw [List.mem_singleton.mp h]
          exact isDig_digitChar (n % 10)

theorem valDigits_append (ds : List Char) (c : Char) :
    valDigits (ds ++ [c]) = valDigits ds * 10 + (c.toNat - 48) := by
  simp [valDigits, List.foldl_append]

theorem valDigits_dumpNat (n : Nat) : valDigits (dumpNat n) = n := by
  induction n using Nat.strong_induction_on with
  | _ n ih =>
      rw [dumpNat_eq]
      by_cases h10 : n < 10
      · simp only [if_pos h10]
        simp [valDigits, digitChar_toNat h10]
      · simp only [if_neg h10]
        rw [valDigits_append, ih (n / 10) (by omega)]
        have : (digitChar (n % 10)).toNat = 48 + n % 10 := digitChar_toNat (by omega)
        omega

theorem dumpNat_head_ne_zero {n : Nat} (hn : n ≠ 0) : (dumpNat n).head? ≠ some '0' := by
  induction n using Nat.strong_induction_on with
  | _ n ih =>
      rw [dumpNat_eq]
      by_cases h10 : n < 10
      · simp only [if_pos h10, List.head?_cons]
        intro e
        have e2 : (digitChar n).toNat = ('0' : Char).toNat := by
          rw [Option.some_inj.mp e]
        rw [digitChar_toNat h10, show ('0' : Char).toNat = 48 from rfl] at e2
        exact hn (by omega)
      · simp only [if_neg h10]
        cases hd : dumpNat (n / 10) with
        | nil => exact absurd hd (dumpNat_ne_nil (n / 10))
        | cons c t =>
            simp only [List.cons_append, List.head?_cons]
            have := ih (n / 10) (by omega) (by omega)
            rw [hd] at this
            simpa using this

/-! ## `Content-Length` header lemmas -/

theorem splitLines_noNL {s : List Char} (h : '\n' ∉ s) : splitLines s = [s] := by
  induction s with
  | nil => rfl
  | cons c t ih =>
      have hc : c ≠ '\n' := fun e => h (e ▸ List.mem_cons_self c t)
      have ht : '\n' ∉ t := fun e => h (List.mem_cons_of_mem c e)
      simp [splitLines, hc, ih ht]

theorem searchCL_header (ds : List Char) (hne : ds ≠ [])
    (hdig : ∀ c ∈ ds, isDig c = true) :
    searchCL (clPre ++ ds) = some (valDigits ds) := by
  have hnl : '\n' ∉ clPre ++ ds := by
    intro hmem
    rcases List.mem_append.mp hmem with h | h
    · revert h
      decide
    · exact absurd (hdig _ h) (by decide)
  rw [searchCL, splitLines_noNL hnl]
  have hfs : ([clPre ++ ds]).findSome? clLine = clLine (clPre ++ ds) := by
    simp [List.findSome?]
    cases clLine (clPre ++ ds) <;> simp
  rw [hfs, clLine]
  simp [leadsWith_append, List.drop_left, hne, List.all_eq_true.mpr hdig]

theorem searchCL_dumpNat (n : Nat) : searchCL (clPre ++ dumpNat n) = some n := by
  rw [searchCL_header (dumpNat n) (dumpNat_ne_nil n) (dumpNat_all_dig n),
    valDigits_dumpNat]

/-! ## Number parsing round-trip -/

theorem isDig_bounds {c : Char} (h : isDig c = true) : 48 ≤ c.toNat ∧ c.toNat ≤ 57 := by
  simp [isDig] at h
  exact h

theorem takeWhile_digits {ds rest : List Char} (hd : ∀ c ∈ ds, isDig c = true)
    (hr : delimOk rest = true) : (ds ++ rest).takeWhile isDig = ds := by
  induction ds with
  | nil =>
      cases rest with
      | nil => rfl
      | cons c t =>
          simp [delimOk] at hr
          simp [List.takeWhile_cons, hr]
  | cons c cs ih =>
      have hc := hd c (List.mem_cons_self c cs)
      simp [List.takeWhile_cons, hc]
      exact ih (fun d hdm => hd d (List.mem_cons_of_mem c hdm))

theorem dropWhile_digits {ds rest : List Char} (hd : ∀ c ∈ ds, isDig c = true)
    (hr : delimOk rest = true) : (ds ++ rest).dropWhile isDig = rest := by
  induction ds with
  | nil =>
      cases rest with
      | nil => rfl
      | cons c t =>
          simp [delimOk] at hr
          simp [List.dropWhile_cons, hr]
  | cons c cs ih =>
      have hc := hd c (List.mem_cons_self c cs)
      simp [List.dropWhile_cons, hc]
      exact ih (fun d hdm => hd d (List.mem_cons_of_mem c hdm))

theorem spanDigits_exact {ds rest : List Char} (hd : ∀ c ∈ ds, isDig c = true)
    (hr : delimOk rest = true) : spanDigits (ds ++ rest) = (ds, rest) := by
  simp [spanDigits, takeWhile_digits hd hr, dropWhile_digits hd hr]

theorem dumpNat_leading_ok (m : Nat) :
    (1 < (dumpNat m).length ∧ (dumpNat m).head? = some '0') = False := by
  simp only [eq_iff_iff, iff_false]
  rintro ⟨hlen, hhead⟩
  rcases Nat.eq_zero_or_pos m with rfl | hpos
  · simp [show dumpNat 0 = ['0'] from rfl] at hlen
  · exact dumpNat_head_ne_zero (by omega) hhead

theorem parseNum_dumpInt (n : Int) {rest : List Char} (hr : delimOk rest = true) :
    parseNum (dumpInt n ++ rest) = some (.num n, rest) := by
  have hne := dumpNat_ne_nil n.natAbs
  by_cases hneg : n < 0
  · have harg : dumpInt n ++ rest = '-' :: (dumpNat n.natAbs ++ rest) := by
      simp [dumpInt, if_pos hneg]
    have hspan := spanDigits_exact (dumpNat_all_dig n.natAbs) hr
    have hval : -((n.natAbs : Int)) = n := by omega
    have hval' : -(n.natAbs : Int) = n := hval
    rw [harg]
    simp [parseNum, hspan, hne, dumpNat_leading_ok n.natAbs, valDigits_dumpNat,
      hval, hval', abs_of_neg hneg]
  · obtain ⟨c, cs, hd⟩ : ∃ c cs, dumpNat n.natAbs = c :: cs := by
      cases h : dumpNat n.natAbs with
      | nil => exact absurd h hne
      | cons c cs => exact ⟨c, cs, rfl⟩
    have hcdig : isDig c = true :=
      dumpNat_all_dig n.natAbs c (by rw [hd]; exact List.mem_cons_self c cs)
    have hcne : c ≠ '-' := by
      intro e
      subst e
      exact absurd (isDig_bounds hcdig) (by decide)
    have harg : dumpInt n ++ rest = c :: (cs ++ rest) := by
      simp [dumpInt, if_neg hneg, hd]
    have hspan : spanDigits (c :: (cs ++ rest)) = (dumpNat n.natAbs, rest) := by
      rw [show c :: (cs ++ rest) = (c :: cs) ++ rest from rfl, ← hd]
      exact spanDigits_exact (dumpNat_all_dig n.natAbs) hr
    have hval : ((n.natAbs : Int)) = n := by omega
    rw [harg]
    simp [parseNum, hspan, hne, dumpNat_leading_ok n.natAbs, valDigits_dumpNat,
      hcne, hval]

/-! ## String escape round-trip -/

theorem charBounds (c : Char) :
    c.toNat < 55296 ∨ (57343 < c.toNat ∧ c.toNat < 1114112) := by
  rcases c.valid with h | h
  · left
    exact h
  · right
    exact h

theorem hexVal_hexDig {d : Nat} (h : d < 16) : hexVal (hexDig d) = d := by
  interval_cases d <;> rfl

theorem mkChar_toNat (c : Char) : mkChar c.toNat = some c := by
  have hv : (c.toNat).isValidChar := by
    rcases charBounds c with h | h
    · exact Or.inl h
    · exact Or.inr ⟨h.1, h.2⟩
  rw [mkChar, dif_pos hv, Char.ofNat_toNat]

theorem escStep_u (c : Char) (t : List Char) (hlt : c.toNat < 65536) :
    escStep ('u' :: (hex4 c.toNat ++ t)) = some (c, t) := by
  have hns : ¬(55296 ≤ c.toNat ∧ c.toNat < 56320) := by
    rcases charBounds c with h | h
    · omega
    · omega
  have h1 : hexVal (hexDig (c.toNat / 4096 % 16)) = c.toNat / 4096 % 16 :=
    hexVal_hexDig (by omega)
  have h2 : hexVal (hexDig (c.toNat / 256 % 16)) = c.toNat / 256 % 16 :=
    hexVal_hexDig (by omega)
  have h3 : hexVal (hexDig (c.toNat / 16 % 16)) = c.toNat / 16 % 16 :=
    hexVal_hexDig (by omega)
  have h4 : hexVal (hexDig (c.toNat % 16)) = c.toNat % 16 :=
    hexVal_hexDig (by omega)
  have hsum : c.toNat / 4096 % 16 * 4096 + c.toNat / 256 % 16 * 256 +
      c.toNat / 16 % 16 * 16 + c.toNat % 16 = c.toNat := by omega
  simp only [hex4, List.cons_append, List.nil_append, escStep, h1, h2, h3, h4, hsum]
  simp [hns, mkChar_toNat c]
  omega

theorem escStep_surr (c : Char) (t : List Char) (hge : 65536 ≤ c.toNat) :
    escStep ('u' :: (hex4 (55296 + (c.toNat - 65536) / 1024) ++
      ('\\' :: 'u' :: (hex4 (56320 + (c.toNat - 65536) % 1024) ++ t)))) = some (c, t) := by
  have hub : c.toNat < 1114112 := by
    rcases charBounds c with h | h
    · omega
    · omega
  have hhi1 : hexVal (hexDig ((55296 + (c.toNat - 65536) / 1024) / 4096 % 16)) =
      (55296 + (c.toNat - 65536) / 1024) / 4096 % 16 := hexVal_hexDig (by omega)
  have hhi2 : hexVal (hexDig ((55296 + (c.toNat - 65536) / 1024) / 256 % 16)) =
      (55296 + (c.toNat - 65536) / 1024) / 256 % 16 := hexVal_hexDig (by omega)
  have hhi3 : hexVal (hexDig ((55296 + (c.toNat - 65536) / 1024) / 16 % 16)) =
      (55296 + (c.toNat - 65536) / 1024) / 16 % 16 := hexVal_hexDig (by omega)
  have hhi4 : hexVal (hexDig ((55296 + (c.toNat - 65536) / 1024) % 16)) =
      (55296 + (c.toNat - 65536) / 1024) % 16 := hexVal_hexDig (by omega)
  have hlo1 : hexVal (hexDig ((56320 + (c.toNat - 65536) % 1024) / 4096 % 16)) =
      (56320 + (c.toNat - 65536) % 1024) / 4096 % 16 := hexVal_hexDig (by omega)
  have hlo2 : hexVal (hexDig ((56320 + (c.toNat - 65536) % 1024) / 256 % 16)) =
      (56320 + (c.toNat - 65536) % 1024) / 256 % 16 := hexVal_hexDig (by omega)
  have hlo3 : hexVal (hexDig ((56320 + (c.toNat - 65536) % 1024) / 16 % 16)) =
      (56320 + (c.toNat - 65536) % 1024) / 16 % 16 := hexVal_hexDig (by omega)
  have hlo4 : hexVal (hexDig ((56320 + (c.toNat - 65536) % 1024) % 16)) =
      (56320 + (c.toNat - 65536) % 1024) % 16 := hexVal_hexDig (by omega)
  have hhisum : (55296 + (c.toNat - 65536) / 1024) / 4096 % 16 * 4096 +
      (55296 + (c.toNat - 65536) / 1024) / 256 % 16 * 256 +
      (55296 + (c.toNat - 65536) / 1024) / 16 % 16 * 16 +
      (55296 + (c.toNat - 65536) / 1024) % 16 = 55296 + (c.toNat - 65536) / 1024 := by
    omega
  have hlosum : (56320 + (c.toNat - 65536) % 1024) / 4096 % 16 * 4096 +
      (56320 + (c.toNat - 65536) % 1024) / 256 % 16 * 256 +
      (56320 + (c.toNat - 65536) % 1024) / 16 % 16 * 16 +
      (56320 + (c.toNat - 65536) % 1024) % 16 = 56320 + (c.toNat - 65536) % 1024 := by
    omega
  have hinhi : 55296 ≤ 55296 + (c.toNat - 65536) / 1024 ∧
      55296 + (c.toNat - 65536) / 1024 < 56320 := by omega
  have hinlo : 56320 ≤ 56320 + (c.toNat - 65536) % 1024 ∧
      56320 + (c.toNat - 65536) % 1024 < 57344 := by omega
  have hcomb : 65536 + (55296 + (c.toNat - 65536) / 1024 - 55296) * 1024 +
      (56320 + (c.toNat - 65536) % 1024 - 56320) = c.toNat := by omega
  simp only [hex4, List.cons_append, List.nil_append, escStep,
    hhi1, hhi2, hhi3, hhi4, hhisum]
  simp only [hinhi.1, hinhi.2, and_self, if_true, hlo1, hlo2, hlo3, hlo4, hlosum]
  simp only [hinlo.1, hinlo.2, and_self, if_true, hcomb, mkChar_toNat c]
  simp
  omega

theorem parseStrBody_backslash (f : Nat) (T : List Char) (ch : Char) (X : List Char)
    (hstep : escStep T = some (ch, X)) :
    parseStrBody (f + 1) ('\\' :: T) =
      (parseStrBody f X).map (fun p => (ch :: p.1, p.2)) := by
  simp [parseStrBody, hstep]

theorem parseStrBody_plain (f : Nat) (c : Char) (T : List Char)
    (h1 : c ≠ '"') (h2 : c ≠ '\\') (h3 : 32 ≤ c.toNat) :
    parseStrBody (f + 1) (c :: T) =
      (parseStrBody f T).map (fun p => (c :: p.1, p.2)) := by
  have h3' : ¬(c.toNat < 32) := by omega
  simp [parseStrBody, h1, h2, h3']

theorem escChar_length_pos (c : Char) : 0 < (escChar c).length := by
  unfold escChar uEsc
  split_ifs <;> simp [hex4]

theorem parseStrBody_escStr :
    ∀ (s : List Char) (fuel : Nat) (rest : List Char),
    (escStr s).length < fuel →
    parseStrBody fuel (escStr s ++ '"' :: rest) = some (s, rest) := by
  intro s
  induction s with
  | nil =>
      intro fuel rest hf
      cases fuel with
      | zero => simp [escStr] at hf
      | succ f => simp [escStr, parseStrBody]
  | cons c s ih =>
      intro fuel rest hf
      have hesc : escStr (c :: s) = escChar c ++ escStr s := rfl
      rw [hesc, List.length_append] at hf
      have hcl := escChar_length_pos c
      cases fuel with
      | zero => omega
      | succ f =>
      have ihX := ih f rest (by omega)
      have hX : (escChar c ++ escStr s) ++ '"' :: rest =
          escChar c ++ (escStr s ++ '"' :: rest) := by simp
      rw [hesc, hX]
      by_cases h1 : c = '"'
      · subst h1
        rw [show escChar '"' = ['\\', '"'] from rfl]
        simp only [List.cons_append, List.nil_append]
        rw [parseStrBody_backslash f ('"' :: (escStr s ++ '"' :: rest)) '"' (escStr s ++ '"' :: rest) rfl, ihX]
        rfl
      by_cases h2 : c = '\\'
      · subst h2
        rw [show escChar '\\' = ['\\', '\\'] from rfl]
        simp only [List.cons_append, List.nil_append]
        rw [parseStrBody_backslash f ('\\' :: (escStr s ++ '"' :: rest)) '\\' (escStr s ++ '"' :: rest) rfl, ihX]
        rfl
      by_cases h3 : c = '\n'
      · subst h3
        rw [show escChar '\n' = ['\\', 'n'] from rfl]
        simp only [List.cons_append, List.nil_append]
        rw [parseStrBody_backslash f ('n' :: (escStr s ++ '"' :: rest)) '\n' (escStr s ++ '"' :: rest) rfl, ihX]
        rfl
      by_cases h4 : c = '\r'
      · subst h4
        rw [show escChar '\r' = ['\\', 'r'] from rfl]
        simp only [List.cons_append, List.nil_append]
        rw [parseStrBody_backslash f ('r' :: (escStr s ++ '"' :: rest)) '\r' (escStr s ++ '"' :: rest) rfl, ihX]
        rfl
      by_cases h5 : c = '\t'
      · subst h5
        rw [show escChar '\t' = ['\\', 't'] from rfl]
        simp only [List.cons_append, List.nil_append]
        rw [parseStrBody_backslash f ('t' :: (escStr s ++ '"' :: rest)) '\t' (escStr s ++ '"' :: rest) rfl, ihX]
        rfl
      by_cases h6 : c.toNat = 8
      · have hc : c = Char.ofNat 8 := by rw [← Char.ofNat_toNat c, h6]
        rw [hc, show escChar (Char.ofNat 8) = ['\\', 'b'] from rfl]
        simp only [List.cons_append, List.nil_append]
        rw [parseStrBody_backslash f ('b' :: (escStr s ++ '"' :: rest)) (Char.ofNat 8) (escStr s ++ '"' :: rest) rfl, ihX]
        rfl
      by_cases h7 : c.toNat = 12
      · have hc : c = Char.ofNat 12 := by rw [← Char.ofNat_toNat c, h7]
        rw [hc, show escChar (Char.ofNat 12) = ['\\', 'f'] from rfl]
        simp only [List.cons_append, List.nil_append]
        rw [parseStrBody_backslash f ('f' :: (escStr s ++ '"' :: rest)) (Char.ofNat 12) (escStr s ++ '"' :: rest) rfl, ihX]
        rfl
      by_cases h8 : c.toNat < 32 ∨ 126 < c.toNat
      · simp only [escChar, if_neg h1, if_neg h2, if_neg h3, if_neg h4, if_neg h5,
          if_neg h6, if_neg h7, if_pos h8]
        by_cases h9 : c.toNat < 65536
        · simp only [uEsc, if_pos h9, List.cons_append, List.append_assoc]
          rw [parseStrBody_backslash f _ c _ (escStep_u c _ h9), ihX]
          rfl
        · simp only [uEsc, if_neg h9, List.cons_append, List.append_assoc,
            List.nil_append]
          rw [parseStrBody_backslash f _ c _ (escStep_surr c _ (by omega)), ihX]
          rfl
      · have hge : 32 ≤ c.toNat := by omega
        simp only [escChar, if_neg h1, if_neg h2, if_neg h3, if_neg h4, if_neg h5,
          if_neg h6, if_neg h7, if_neg h8, List.cons_append, List.nil_append]
        rw [parseStrBody_plain f c _ h1 h2 hge, ihX]
        rfl

theorem parseStr_escStr (s rest : List Char) :
    parseStr (escStr s ++ '"' :: rest) = some (s, rest) := by
  have h : (escStr s).length < (escStr s ++ '"' :: rest).length + 1 := by
    simp
    omega
  exact parseStrBody_escStr s _ rest h

/-! ## Whitespace and lead-character lemmas -/

theorem skipWs_cons_neg {c : Char} {t : List Char} (h : isWs c = false) :
    skipWs (c :: t) = c :: t := by
  simp [skipWs, List.dropWhile_cons, h]

theorem skipWs_cons_pos {c : Char} {t : List Char} (h : isWs c = true) :
    skipWs (c :: t) = skipWs t := by
  simp [skipWs, List.dropWhile_cons, h]

theorem isDig_ne_lit {c : Char} (h : isDig c = true) {d : Char} (hd : isDig d = false) :
    c ≠ d := by
  intro e
  subst e
  rw [h] at hd
  cases hd

theorem isDig_ws_false {c : Char} (h : isDig c = true) : isWs c = false := by
  have h1 : c ≠ ' ' := isDig_ne_lit h (by decide)
  have h2 : c ≠ '\t' := isDig_ne_lit h (by decide)
  have h3 : c ≠ '\n' := isDig_ne_lit h (by decide)
  have h4 : c ≠ '\r' := isDig_ne_lit h (by decide)
  simp [isWs, h1, h2, h3, h4]

theorem dumpInt_head (n : Int) :
    ∃ c t, dumpInt n = c :: t ∧ (c = '-' ∨ isDig c = true) := by
  by_cases hn : n < 0
  · exact ⟨'-', dumpNat n.natAbs, by simp [dumpInt, hn], Or.inl rfl⟩
  · obtain ⟨c, t, hd⟩ : ∃ c t, dumpNat n.natAbs = c :: t := by
      cases h : dumpNat n.natAbs with
      | nil => exact absurd h (dumpNat_ne_nil n.natAbs)
      | cons c t => exact ⟨c, t, rfl⟩
    refine ⟨c, t, by simp [dumpInt, hn, hd], Or.inr ?_⟩
    exact dumpNat_all_dig n.natAbs c (by rw [hd]; exact List.mem_cons_self c t)

theorem dumpsV_head (v : Json) :
    ∃ c t, dumpsV v = c :: t ∧ isWs c = false ∧ c ≠ ']' ∧ c ≠ '}' := by
  cases v with
  | num n =>
      obtain ⟨c, t, hd, hc⟩ := dumpInt_head n
      refine ⟨c, t, hd, ?_, ?_, ?_⟩
      · rcases hc with rfl | hdig
        · decide
        · exact isDig_ws_false hdig
      · rcases hc with rfl | hdig
        · decide
        · exact isDig_ne_lit hdig (by decide)
      · rcases hc with rfl | hdig
        · decide
        · exact isDig_ne_lit hdig (by decide)
  | bool b => cases b <;> (refine ⟨_, _, rfl, ?_, ?_, ?_⟩ <;> decide)
  | null => refine ⟨_, _, rfl, ?_, ?_, ?_⟩ <;> decide
  | str s => refine ⟨_, _, rfl, ?_, ?_, ?_⟩ <;> decide
  | arr es => refine ⟨_, _, rfl, ?_, ?_, ?_⟩ <;> decide
  | obj kvs => refine ⟨_, _, rfl, ?_, ?_, ?_⟩ <;> decide

theorem skipWs_dumps (v : Json) (rest : List Char) :
    skipWs (dumpsV v ++ rest) = dumpsV v ++ rest := by
  obtain ⟨c, t, hd, hws, -, -⟩ := dumpsV_head v
  rw [hd, List.cons_append]
  exact skipWs_cons_neg hws

/-! ## Whitespace invariance of the parsers -/

theorem parseValue_cons_ws (fuel : Nat) {c : Char} (X : List Char) (h : isWs c = true) :
    parseValue fuel (c :: X) = parseValue fuel X := by
  cases fuel with
  | zero => rfl
  | succ f =>
      simp only [parseValue]
      rw [skipWs_cons_pos h]

theorem parseElems_cons_ws (fuel : Nat) {c : Char} (X : List Char) (h : isWs c = true) :
    parseElems fuel (c :: X) = parseElems fuel X := by
  cases fuel with
  | zero => rfl
  | succ f =>
      simp only [parseElems]
      rw [parseValue_cons_ws f X h]

theorem parseFields_cons_ws (fuel : Nat) {c : Char} (X : List Char) (h : isWs c = true) :
    parseFields fuel (c :: X) = parseFields fuel X := by
  cases fuel with
  | zero => rfl
  | succ f =>
      simp only [parseFields]
      rw [skipWs_cons_pos h]

theorem parseValue_num_branch (f : Nat) {c : Char} (t : List Char)
    (hc : c = '-' ∨ isDig c = true) :
    parseValue (f + 1) (c :: t) = parseNum (c :: t) := by
  have hws : isWs c = false := by
    rcases hc with rfl | hdig
    · decide
    · exact isDig_ws_false hdig
  have h1 : c ≠ '{' := by
    rcases hc with rfl | hdig
    · decide
    · exact isDig_ne_lit hdig (by decide)
  have h2 : c ≠ '[' := by
    rcases hc with rfl | hdig
    · decide
    · exact isDig_ne_lit hdig (by decide)
  have h3 : c ≠ '"' := by
    rcases hc with rfl | hdig
    · decide
    · exact isDig_ne_lit hdig (by decide)
  have h4 : c ≠ 't' := by
    rcases hc with rfl | hdig
    · decide
    · exact isDig_ne_lit hdig (by decide)
  have h5 : c ≠ 'f' := by
    rcases hc with rfl | hdig
    · decide
    · exact isDig_ne_lit hdig (by decide)
  have h6 : c ≠ 'n' := by
    rcases hc with rfl | hdig
    · decide
    · exact isDig_ne_lit hdig (by decide)
  have hor : (c = '-' || isDig c) = true := by
    rcases hc with rfl | hdig
    · simp
    · simp [hdig]
  simp only [parseValue]
  rw [skipWs_cons_neg hws]
  simp [h1, h2, h3, h4, h5, h6, hor]

/-! ## Dict-building lemmas -/


theorem keyMem_eq_false {k : List Char} {kvs : List (List Char × Json)} :
    keyMem k kvs = false ↔ ∀ p ∈ kvs, p.1 ≠ k := by
  induction kvs with
  | nil =>
      constructor
      · intro _ p hp
        cases hp
      · intro _
        rfl
  | cons q rest ih =>
      constructor
      · intro h p hp
        have h' : (decide (q.1 = k) || keyMem k rest) = false := h
        rcases List.mem_cons.mp hp with rfl | hmem
        · intro e
          simp [e] at h'
        · rcases Bool.or_eq_false_iff.mp h' with ⟨-, h2⟩
          exact ih.mp h2 p hmem
      · intro h
        show (decide (q.1 = k) || keyMem k rest) = false
        rw [Bool.or_eq_false_iff]
        constructor
        · simpa using h q (List.mem_cons_self q rest)
        · exact ih.mpr (fun p hp => h p (List.mem_cons_of_mem q hp))

theorem objSet_absent {k : List Char} {v : Json} {kvs : List (List Char × Json)}
    (h : keyMem k kvs = false) : objSet kvs k v = kvs ++ [(k, v)] := by
  induction kvs with
  | nil => rfl
  | cons p rest ih =>
      obtain ⟨k', v'⟩ := p
      have h1 : k' ≠ k := (keyMem_eq_false.mp h) (k', v') (List.mem_cons_self _ _)
      have h2 : keyMem k rest = false := by
        rw [keyMem_eq_false]
        intro p hp
        exact (keyMem_eq_false.mp h) p (List.mem_cons_of_mem _ hp)
      simp [objSet, h1, ih h2]

theorem keyMem_append {k : List Char} {a b : List (List Char × Json)} :
    keyMem k (a ++ b) = (keyMem k a || keyMem k b) := by
  simp [keyMem, List.any_append]

theorem foldl_objSet :
    ∀ (pairs acc : List (List Char × Json)), nodupKeys pairs = true →
    (∀ p ∈ pairs, keyMem p.1 acc = false) →
    pairs.foldl (fun m p => objSet m p.1 p.2) acc = acc ++ pairs := by
  intro pairs
  induction pairs with
  | nil =>
      intro acc _ _
      simp
  | cons p rest ih =>
      intro acc hnd habs
      obtain ⟨k, v⟩ := p
      simp only [nodupKeys, Bool.and_eq_true, Bool.not_eq_true'] at hnd
      obtain ⟨hkm, hnd'⟩ := hnd
      have hkm' : ∀ p ∈ rest, p.1 ≠ k := keyMem_eq_false.mp hkm
      have hka : keyMem k acc = false := habs (k, v) (List.mem_cons_self _ _)
      simp only [List.foldl_cons]
      rw [objSet_absent hka]
      rw [ih (acc ++ [(k, v)]) hnd' ?_]
      · simp
      · intro p hp
        rw [keyMem_append]
        have h1 : keyMem p.1 acc = false := habs p (List.mem_cons_of_mem _ hp)
        have h2 : keyMem p.1 [(k, v)] = false := by
          rw [keyMem_eq_false]
          intro q hq
          rw [List.mem_singleton.mp hq]
          exact (hkm' p hp).symm
        rw [h1, h2]
        rfl

theorem dictFromPairs_nodup {kvs : List (List Char × Json)}
    (h : nodupKeys kvs = true) : dictFromPairs kvs = kvs := by
  rw [dictFromPairs, foldl_objSet kvs [] h (fun p _ => rfl)]
  rfl

/-! ## Fuel bounds -/

theorem dumpInt_length_pos (n : Int) : 0 < (dumpInt n).length := by
  obtain ⟨c, t, hd, -⟩ := dumpInt_head n
  simp [hd]

mutual

theorem jsizeV_le : ∀ (v : Json), jsizeV v ≤ (dumpsV v).length
  | .null => by simp [jsizeV, dumpsV]
  | .bool true => by simp [jsizeV, dumpsV]
  | .bool false => by simp [jsizeV, dumpsV]
  | .num n => by
      have := dumpInt_length_pos n
      simp only [jsizeV, dumpsV]
      omega
  | .str s => by simp [jsizeV, dumpsV]
  | .arr [] => by simp [jsizeV, dumpsV, dumpsArr]
  | .arr (e :: es) => by
      have h := jsizeE_le (e :: es)
      have e1 : jsizeV (.arr (e :: es)) = 1 + jsizeE (e :: es) := rfl
      have e2 : dumpsV (.arr (e :: es)) = '[' :: (dumpsArr (e :: es) ++ [']']) := rfl
      rw [e1, e2]
      simp only [List.length_cons, List.length_append, List.length_singleton]
      omega
  | .obj [] => by simp [jsizeV, dumpsV, dumpsObj]
  | .obj (kv :: kvs) => by
      have h := jsizeF_le (kv :: kvs)
      have e1 : jsizeV (.obj (kv :: kvs)) = 1 + jsizeF (kv :: kvs) := rfl
      have e2 : dumpsV (.obj (kv :: kvs)) = '{' :: (dumpsObj (kv :: kvs) ++ ['}']) := rfl
      rw [e1, e2]
      simp only [List.length_cons, List.length_append, List.length_singleton]
      omega

theorem jsizeE_le : ∀ (es : List Json), jsizeE es ≤ (dumpsArr es).length + 1
  | [] => by simp [jsizeE, dumpsArr]
  | [e] => by
      have h := jsizeV_le e
      have e1 : jsizeE [e] = 1 + jsizeV e + 0 := rfl
      have e2 : dumpsArr [e] = dumpsV e := rfl
      rw [e1, e2]
      omega
  | e :: e2 :: es => by
      have h1 := jsizeV_le e
      have h2 := jsizeE_le (e2 :: es)
      have q1 : jsizeE (e :: e2 :: es) = 1 + jsizeV e + jsizeE (e2 :: es) := rfl
      have q2 : dumpsArr (e :: e2 :: es) =
          dumpsV e ++ ',' :: ' ' :: dumpsArr (e2 :: es) := rfl
      rw [q1, q2]
      simp only [List.length_append, List.length_cons]
      omega

theorem jsizeF_le :
    ∀ (kvs : List (List Char × Json)), jsizeF kvs ≤ (dumpsObj kvs).length + 1
  | [] => by simp [jsizeF, dumpsObj]
  | [(k, v)] => by
      have h := jsizeV_le v
      have q1 : jsizeF [(k, v)] = 1 + jsizeV v + 0 := rfl
      have q2 : dumpsObj [(k, v)] = '"' :: escStr k ++ '"' :: ':' :: ' ' :: dumpsV v := rfl
      rw [q1, q2]
      simp only [List.length_append, List.length_cons]
      omega
  | (k, v) :: kv2 :: kvs => by
      have h1 := jsizeV_le v
      have h2 := jsizeF_le (kv2 :: kvs)
      have q1 : jsizeF ((k, v) :: kv2 :: kvs) = 1 + jsizeV v + jsizeF (kv2 :: kvs) := rfl
      have q2 : dumpsObj ((k, v) :: kv2 :: kvs) =
          '"' :: escStr k ++ '"' :: ':' :: ' ' :: dumpsV v ++
            ',' :: ' ' :: dumpsObj (kv2 :: kvs) := rfl
      rw [q1, q2]
      simp only [List.length_append, List.length_cons]
      omega

end

/-! ## Branch lemmas for `parseValue` -/

theorem parseValue_arr_branch (f : Nat) (X : List Char) :
    parseValue (f + 1) ('[' :: X) =
      (if (skipWs X).head? = some ']' then some (.arr [], (skipWs X).tail)
       else (parseElems f (skipWs X)).map (fun p => (.arr p.1, p.2))) := by
  simp only [parseValue]
  rw [skipWs_cons_neg (by decide)]
  simp

theorem parseValue_obj_branch (f : Nat) (X : List Char) :
    parseValue (f + 1) ('{' :: X) =
      (if (skipWs X).head? = some '}' then some (.obj [], (skipWs X).tail)
       else (parseFields f (skipWs X)).map (fun p => (.obj (dictFromPairs p.1), p.2))) := by
  simp only [parseValue]
  rw [skipWs_cons_neg (by decide)]
  simp

theorem parseValue_str_branch (f : Nat) (X : List Char) :
    parseValue (f + 1) ('"' :: X) = (parseStr X).map (fun p => (.str p.1, p.2)) := by
  simp only [parseValue]
  rw [skipWs_cons_neg (by decide)]
  simp

theorem parseValue_null_lit (f : Nat) (X : List Char) :
    parseValue (f + 1) ('n' :: 'u' :: 'l' :: 'l' :: X) = some (.null, X) := by
  simp only [parseValue]
  rw [skipWs_cons_neg (by decide)]
  have hl := leadsWith_append ['u', 'l', 'l'] X
  simp only [List.cons_append, List.nil_append] at hl
  simp [hl]

theorem parseValue_true_lit (f : Nat) (X : List Char) :
    parseValue (f + 1) ('t' :: 'r' :: 'u' :: 'e' :: X) = some (.bool true, X) := by
  simp only [parseValue]
  rw [skipWs_cons_neg (by decide)]
  have hl := leadsWith_append ['r', 'u', 'e'] X
  simp only [List.cons_append, List.nil_append] at hl
  simp [hl]

theorem parseValue_false_lit (f : Nat) (X : List Char) :
    parseValue (f + 1) ('f' :: 'a' :: 'l' :: 's' :: 'e' :: X) = some (.bool false, X) := by
  simp only [parseValue]
  rw [skipWs_cons_neg (by decide)]
  have hl := leadsWith_append ['a', 'l', 's', 'e'] X
  simp only [List.cons_append, List.nil_append] at hl
  simp [hl]

theorem dumpsArr_head (e : Json) (es : List Json) :
    ∃ t, dumpsArr (e :: es) = dumpsV e ++ t := by
  cases es with
  | nil => exact ⟨[], by simp [dumpsArr]⟩
  | cons e2 es => exact ⟨',' :: ' ' :: dumpsArr (e2 :: es), rfl⟩

theorem dumpsObj_head (k : List Char) (v : Json) (kvs : List (List Char × Json)) :
    ∃ t, dumpsObj ((k, v) :: kvs) = '"' :: (escStr k ++ ('"' :: t)) := by
  cases kvs with
  | nil => exact ⟨':' :: ' ' :: dumpsV v, rfl⟩
  | cons kv2 kvs =>
      refine ⟨':' :: ' ' :: (dumpsV v ++ ',' :: ' ' :: dumpsObj (kv2 :: kvs)), ?_⟩
      simp [dumpsObj]

/-! ## Serialization/parsing round-trip -/

mutual

theorem rtValue : ∀ (v : Json), wfJson v = true →
    ∀ (fuel : Nat) (rest : List Char), jsizeV v ≤ fuel → delimOk rest = true →
    parseValue fuel (dumpsV v ++ rest) = some (v, rest)
  | .null, _, fuel, rest, hfuel, _ => by
      have h1 : jsizeV .null = 1 := rfl
      obtain ⟨f, rfl⟩ : ∃ f, fuel = f + 1 := ⟨fuel - 1, by omega⟩
      have harg : dumpsV .null ++ rest = 'n' :: 'u' :: 'l' :: 'l' :: rest := rfl
      rw [harg, parseValue_null_lit]
  | .bool true, _, fuel, rest, hfuel, _ => by
      have h1 : jsizeV (.bool true) = 1 := rfl
      obtain ⟨f, rfl⟩ : ∃ f, fuel = f + 1 := ⟨fuel - 1, by omega⟩
      have harg : dumpsV (.bool true) ++ rest = 't' :: 'r' :: 'u' :: 'e' :: rest := rfl
      rw [harg, parseValue_true_lit]
  | .bool false, _, fuel, rest, hfuel, _ => by
      have h1 : jsizeV (.bool false) = 1 := rfl
      obtain ⟨f, rfl⟩ : ∃ f, fuel = f + 1 := ⟨fuel - 1, by omega⟩
      have harg : dumpsV (.bool false) ++ rest = 'f' :: 'a' :: 'l' :: 's' :: 'e' :: rest := rfl
      rw [harg, parseValue_false_lit]
  | .num n, _, fuel, rest, hfuel, hdelim => by
      have h1 : jsizeV (.num n) = 1 := rfl
      obtain ⟨f, rfl⟩ : ∃ f, fuel = f + 1 := ⟨fuel - 1, by omega⟩
      obtain ⟨c, t, hd, hc⟩ := dumpInt_head n
      have harg : dumpsV (.num n) ++ rest = c :: (t ++ rest) := by
        show dumpInt n ++ rest = c :: (t ++ rest)
        rw [hd]
        rfl
      rw [harg, parseValue_num_branch f (t ++ rest) hc]
      have harg2 : c :: (t ++ rest) = dumpInt n ++ rest := by
        rw [hd]
        rfl
      rw [harg2]
      exact parseNum_dumpInt n hdelim
  | .str s, _, fuel, rest, hfuel, _ => by
      have h1 : jsizeV (.str s) = 1 := rfl
      obtain ⟨f, rfl⟩ : ∃ f, fuel = f + 1 := ⟨fuel - 1, by omega⟩
      have harg : dumpsV (.str s) ++ rest = '"' :: (escStr s ++ ('"' :: rest)) := by
        show ('"' :: (escStr s ++ ['"'])) ++ rest = _
        simp
      rw [harg, parseValue_str_branch, parseStr_escStr]
      rfl
  | .arr [], _, fuel, rest, hfuel, _ => by
      have h1 : jsizeV (.arr []) = 1 := rfl
      obtain ⟨f, rfl⟩ : ∃ f, fuel = f + 1 := ⟨fuel - 1, by omega⟩
      have harg : dumpsV (.arr []) ++ rest = '[' :: (']' :: rest) := rfl
      rw [harg, parseValue_arr_branch, skipWs_cons_neg (by decide)]
      simp
  | .arr (e :: es), hwf, fuel, rest, hfuel, _ => by
      have hq : jsizeV (.arr (e :: es)) = 1 + jsizeE (e :: es) := rfl
      obtain ⟨f, rfl⟩ : ∃ f, fuel = f + 1 := ⟨fuel - 1, by omega⟩
      have hwfl : wfList (e :: es) = true := by
        simp only [wfJson] at hwf
        exact hwf
      have harg : dumpsV (.arr (e :: es)) ++ rest =
          '[' :: (dumpsArr (e :: es) ++ (']' :: rest)) := by
        show ('[' :: (dumpsArr (e :: es) ++ [']'])) ++ rest = _
        simp
      obtain ⟨c0, t0, hd0, hws0, hne0, -⟩ := dumpsV_head e
      obtain ⟨tA, htA⟩ := dumpsArr_head e es
      have hshape : dumpsArr (e :: es) ++ (']' :: rest) =
          c0 :: (t0 ++ (tA ++ (']' :: rest))) := by
        rw [htA, hd0]
        simp
      have hsw : skipWs (dumpsArr (e :: es) ++ (']' :: rest)) =
          dumpsArr (e :: es) ++ (']' :: rest) := by
        rw [hshape]
        exact skipWs_cons_neg hws0
      have hcond : ¬((dumpsArr (e :: es) ++ (']' :: rest)).head? = some ']') := by
        rw [hshape]
        simp [hne0]
      rw [harg, parseValue_arr_branch, hsw, if_neg hcond,
        rtElems (e :: es) hwfl (by simp) f rest (by omega)]
      rfl
  | .obj [], _, fuel, rest, hfuel, _ => by
      have h1 : jsizeV (.obj []) = 1 := rfl
      obtain ⟨f, rfl⟩ : ∃ f, fuel = f + 1 := ⟨fuel - 1, by omega⟩
      have harg : dumpsV (.obj []) ++ rest = '{' :: ('}' :: rest) := rfl
      rw [harg, parseValue_obj_branch, skipWs_cons_neg (by decide)]
      simp
  | .obj ((k, v) :: kvs), hwf, fuel, rest, hfuel, _ => by
      have hq : jsizeV (.obj ((k, v) :: kvs)) = 1 + jsizeF ((k, v) :: kvs) := rfl
      obtain ⟨f, rfl⟩ : ∃ f, fuel = f + 1 := ⟨fuel - 1, by omega⟩
      have hnd : nodupKeys ((k, v) :: kvs) = true := by
        simp only [wfJson, Bool.and_eq_true] at hwf
        exact hwf.1
      have hwff : wfFields ((k, v) :: kvs) = true := by
        simp only [wfJson, Bool.and_eq_true] at hwf
        exact hwf.2
      have harg : dumpsV (.obj ((k, v) :: kvs)) ++ rest =
          '{' :: (dumpsObj ((k, v) :: kvs) ++ ('}' :: rest)) := by
        show ('{' :: (dumpsObj ((k, v) :: kvs) ++ ['}'])) ++ rest = _
        simp
      obtain ⟨tO, htO⟩ := dumpsObj_head k v kvs
      have hshape : dumpsObj ((k, v) :: kvs) ++ ('}' :: rest) =
          '"' :: ((escStr k ++ ('"' :: tO)) ++ ('}' :: rest)) := by
        rw [htO]
        simp
      have hsw : skipWs (dumpsObj ((k, v) :: kvs) ++ ('}' :: rest)) =
          dumpsObj ((k, v) :: kvs) ++ ('}' :: rest) := by
        rw [hshape]
        exact skipWs_cons_neg (by decide)
      have hcond : ¬((dumpsObj ((k, v) :: kvs) ++ ('}' :: rest)).head? = some '}') := by
        rw [hshape]
        simp
      rw [harg, parseValue_obj_branch, hsw, if_neg hcond,
        rtFields ((k, v) :: kvs) hwff (by simp) f rest (by omega)]
      simp [dictFromPairs_nodup hnd]

theorem rtElems : ∀ (es : List Json), wfList es = true → es ≠ [] →
    ∀ (fuel : Nat) (rest : List Char), jsizeE es ≤ fuel →
    parseElems fuel (dumpsArr es ++ (']' :: rest)) = some (es, rest)
  | [], _, hne, _, _, _ => absurd rfl hne
  | [e], hwf, _, fuel, rest, hfuel => by
      have hq : jsizeE [e] = 1 + jsizeV e + 0 := rfl
      obtain ⟨f, rfl⟩ : ∃ f, fuel = f + 1 := ⟨fuel - 1, by omega⟩
      have hwfe : wfJson e = true := by
        simp only [wfList, Bool.and_eq_true] at hwf
        exact hwf.1
      have harg : dumpsArr [e] ++ (']' :: rest) = dumpsV e ++ (']' :: rest) := by
        rw [show dumpsArr [e] = dumpsV e from rfl]
      simp only [parseElems]
      rw [harg, rtValue e hwfe f (']' :: rest) (by omega) rfl]
      simp [skipWs_cons_neg (show isWs ']' = false by decide)]
  | e :: e2 :: es, hwf, _, fuel, rest, hfuel => by
      have hq : jsizeE (e :: e2 :: es) = 1 + jsizeV e + jsizeE (e2 :: es) := rfl
      have hq2 : jsizeE (e2 :: es) = 1 + jsizeV e2 + jsizeE es := rfl
      obtain ⟨f, rfl⟩ : ∃ f, fuel = f + 1 := ⟨fuel - 1, by omega⟩
      have hwf1 : wfJson e = true := by
        simp only [wfList, Bool.and_eq_true] at hwf
        exact hwf.1
      have hwf2 : wfList (e2 :: es) = true := by
        simp only [wfList, Bool.and_eq_true] at hwf ⊢
        exact hwf.2
      have harg : dumpsArr (e :: e2 :: es) ++ (']' :: rest) =
          dumpsV e ++ (',' :: ' ' :: (dumpsArr (e2 :: es) ++ (']' :: rest))) := by
        rw [show dumpsArr (e :: e2 :: es) =
          dumpsV e ++ ',' :: ' ' :: dumpsArr (e2 :: es) from rfl]
        simp
      simp only [parseElems]
      rw [harg, rtValue e hwf1 f
        (',' :: ' ' :: (dumpsArr (e2 :: es) ++ (']' :: rest))) (by omega) rfl]
      simp only [skipWs_cons_neg (show isWs ',' = false by decide), List.head?_cons,
        List.tail_cons, Option.some.injEq, reduceIte]
      obtain ⟨g, rfl⟩ : ∃ g, f = g + 1 := ⟨f - 1, by omega⟩
      rw [parseElems_cons_ws (g + 1) _ (by decide),
        rtElems (e2 :: es) hwf2 (by simp) (g + 1) rest (by omega)]
      rfl

theorem rtFields :
    ∀ (kvs : List (List Char × Json)), wfFields kvs = true → kvs ≠ [] →
    ∀ (fuel : Nat) (rest : List Char), jsizeF kvs ≤ fuel →
    parseFields fuel (dumpsObj kvs ++ ('}' :: rest)) = some (kvs, rest)
  | [], _, hne, _, _, _ => absurd rfl hne
  | [(k, v)], hwf, _, fuel, rest, hfuel => by
      have hq : jsizeF [(k, v)] = 1 + jsizeV v + 0 := rfl
      obtain ⟨f, rfl⟩ : ∃ f, fuel = f + 1 := ⟨fuel - 1, by omega⟩
      have hwfv : wfJson v = true := by
        simp only [wfFields, Bool.and_eq_true] at hwf
        exact hwf.1
      have harg : dumpsObj [(k, v)] ++ ('}' :: rest) =
          '"' :: (escStr k ++ ('"' :: (':' :: (' ' :: (dumpsV v ++ ('}' :: rest)))))) := by
        rw [show dumpsObj [(k, v)] = '"' :: escStr k ++ '"' :: ':' :: ' ' :: dumpsV v
          from rfl]
        simp
      simp only [parseFields]
      rw [harg, skipWs_cons_neg (show isWs '"' = false by decide)]
      simp only [List.head?_cons, List.tail_cons, Option.some.injEq, reduceIte]
      rw [parseStr_escStr k (':' :: (' ' :: (dumpsV v ++ ('}' :: rest))))]
      simp only [skipWs_cons_neg (show isWs ':' = false by decide), List.head?_cons,
        List.tail_cons, Option.some.injEq, reduceIte]
      rw [parseValue_cons_ws f _ (by decide),
        rtValue v hwfv f ('}' :: rest) (by omega) rfl]
      simp [skipWs_cons_neg (show isWs '}' = false by decide)]
  | (k, v) :: (k2, v2) :: kvs, hwf, _, fuel, rest, hfuel => by
      have hq : jsizeF ((k, v) :: (k2, v2) :: kvs) =
        1 + jsizeV v + jsizeF ((k2, v2) :: kvs) := rfl
      have hq2 : jsizeF ((k2, v2) :: kvs) = 1 + jsizeV v2 + jsizeF kvs := rfl
      obtain ⟨f, rfl⟩ : ∃ f, fuel = f + 1 := ⟨fuel - 1, by omega⟩
      have hwfv : wfJson v = true := by
        simp only [wfFields, Bool.and_eq_true] at hwf
        exact hwf.1
      have hwf2 : wfFields ((k2, v2) :: kvs) = true := by
        simp only [wfFields, Bool.and_eq_true] at hwf ⊢
        exact hwf.2
      have harg : dumpsObj ((k, v) :: (k2, v2) :: kvs) ++ ('}' :: rest) =
          '"' :: (escStr k ++ ('"' :: (':' :: (' ' :: (dumpsV v ++
            (',' :: (' ' :: (dumpsObj ((k2, v2) :: kvs) ++ ('}' :: rest))))))))) := by
        rw [show dumpsObj ((k, v) :: (k2, v2) :: kvs) =
          '"' :: escStr k ++ '"' :: ':' :: ' ' :: dumpsV v ++
            ',' :: ' ' :: dumpsObj ((k2, v2) :: kvs) from by simp [dumpsObj]]
        simp
      simp only [parseFields]
      rw [harg, skipWs_cons_neg (show isWs '"' = false by decide)]
      simp only [List.head?_cons, List.tail_cons, Option.some.injEq, reduceIte]
      rw [parseStr_escStr k _]
      simp only [skipWs_cons_neg (show isWs ':' = false by decide), List.head?_cons,
        List.tail_cons, Option.some.injEq, reduceIte]
      rw [parseValue_cons_ws f _ (by decide),
        rtValue v hwfv f
          (',' :: (' ' :: (dumpsObj ((k2, v2) :: kvs) ++ ('}' :: rest))))
          (by omega) rfl]
      simp only [skipWs_cons_neg (show isWs ',' = false by decide), List.head?_cons,
        List.tail_cons, Option.some.injEq, reduceIte]
      obtain ⟨g, rfl⟩ : ∃ g, f = g + 1 := ⟨f - 1, by omega⟩
      rw [parseFields_cons_ws (g + 1) _ (by decide),
        rtFields ((k2, v2) :: kvs) hwf2 (by simp) (g + 1) rest (by omega)]
      rfl

end

theorem loads_dumps (v : Json) (hwf : wfJson v = true) : loads (dumpsV v) = some v := by
  rw [loads]
  have hfuel : jsizeV v ≤ (dumpsV v).length + 1 := le_trans (jsizeV_le v) (by omega)
  have h := rtValue v hwf ((dumpsV v).length + 1) [] hfuel rfl
  rw [List.append_nil] at h
  rw [h]
  rfl

/-! ## Serialized output contains no carriage return and is ASCII -/

theorem hexDig_tame (d : Nat) : hexDig d ≠ '\r' ∧ (hexDig d).toNat < 128 := by
  unfold hexDig
  split <;> exact ⟨by decide, by decide⟩

theorem digitChar_tame (d : Nat) : digitChar d ≠ '\r' ∧ (digitChar d).toNat < 128 := by
  unfold digitChar
  split <;> exact ⟨by decide, by decide⟩

theorem dumpNat_tame (n : Nat) : ∀ c ∈ dumpNat n, c ≠ '\r' ∧ c.toNat < 128 := by
  intro c hc
  have hd := dumpNat_all_dig n c hc
  have hb := isDig_bounds hd
  exact ⟨isDig_ne_lit hd (by decide), by omega⟩

theorem dumpInt_tame (n : Int) : ∀ c ∈ dumpInt n, c ≠ '\r' ∧ c.toNat < 128 := by
  intro c hc
  by_cases hn : n < 0
  · rw [dumpInt, if_pos hn] at hc
    rcases List.mem_cons.mp hc with rfl | hmem
    · exact ⟨by decide, by decide⟩
    · exact dumpNat_tame n.natAbs c hmem
  · rw [dumpInt, if_neg hn] at hc
    exact dumpNat_tame n.natAbs c hc

theorem hex4_tame (m : Nat) : ∀ c ∈ hex4 m, c ≠ '\r' ∧ c.toNat < 128 := by
  intro c hc
  fin_cases hc <;> exact hexDig_tame _

theorem uEsc_tame (n : Nat) : ∀ c ∈ uEsc n, c ≠ '\r' ∧ c.toNat < 128 := by
  intro c hc
  rw [uEsc] at hc
  split at hc
  · rcases List.mem_cons.mp hc with rfl | hc
    · exact ⟨by decide, by decide⟩
    rcases List.mem_cons.mp hc with rfl | hc
    · exact ⟨by decide, by decide⟩
    · exact hex4_tame _ c hc
  · rcases List.mem_append.mp hc with h | h
    · rcases List.mem_cons.mp h with rfl | h
      · exact ⟨by decide, by decide⟩
      rcases List.mem_cons.mp h with rfl | h
      · exact ⟨by decide, by decide⟩
      · exact hex4_tame _ c h
    · rcases List.mem_cons.mp h with rfl | h
      · exact ⟨by decide, by decide⟩
      rcases List.mem_cons.mp h with rfl | h
      · exact ⟨by decide, by decide⟩
      · exact hex4_tame _ c h

theorem escChar_tame (c : Char) : ∀ x ∈ escChar c, x ≠ '\r' ∧ x.toNat < 128 := by
  intro x hx
  rw [escChar] at hx
  split_ifs at hx with h1 h2 h3 h4 h5 h6 h7 h8
  · fin_cases hx <;> exact ⟨by decide, by decide⟩
  · fin_cases hx <;> exact ⟨by decide, by decide⟩
  · fin_cases hx <;> exact ⟨by decide, by decide⟩
  · fin_cases hx <;> exact ⟨by decide, by decide⟩
  · fin_cases hx <;> exact ⟨by decide, by decide⟩
  · fin_cases hx <;> exact ⟨by decide, by decide⟩
  · fin_cases hx <;> exact ⟨by decide, by decide⟩
  · exact uEsc_tame c.toNat x hx
  · rw [List.mem_singleton.mp hx]
    constructor
    · intro e
      subst e
      exact h8 (Or.inl (by decide))
    · omega

theorem escStr_tame (s : List Char) : ∀ x ∈ escStr s, x ≠ '\r' ∧ x.toNat < 128 := by
  induction s with
  | nil => intro x hx; cases hx
  | cons c cs ih =>
      intro x hx
      rcases List.mem_append.mp hx with h | h
      · exact escChar_tame c x h
      · exact ih x h

mutual

theorem dumpsV_tame : ∀ (v : Json), ∀ c ∈ dumpsV v, c ≠ '\r' ∧ c.toNat < 128
  | .null => by intro c hc; fin_cases hc <;> exact ⟨by decide, by decide⟩
  | .bool true => by intro c hc; fin_cases hc <;> exact ⟨by decide, by decide⟩
  | .bool false => by intro c hc; fin_cases hc <;> exact ⟨by decide, by decide⟩
  | .num n => by
      intro c hc
      exact dumpInt_tame n c hc
  | .str s => by
      intro c hc
      rcases List.mem_cons.mp hc with rfl | hc
      · exact ⟨by decide, by decide⟩
      rcases List.mem_append.mp hc with h | h
      · exact escStr_tame s c h
      · rw [List.mem_singleton.mp h]
        exact ⟨by decide, by decide⟩
  | .arr es => by
      intro c hc
      rcases List.mem_cons.mp hc with rfl | hc
      · exact ⟨by decide, by decide⟩
      rcases List.mem_append.mp hc with h | h
      · exact dumpsArr_tame es c h
      · rw [List.mem_singleton.mp h]
        exact ⟨by decide, by decide⟩
  | .obj kvs => by
      intro c hc
      rcases List.mem_cons.mp hc with rfl | hc
      · exact ⟨by decide, by decide⟩
      rcases List.mem_append.mp hc with h | h
      · exact dumpsObj_tame kvs c h
      · rw [List.mem_singleton.mp h]
        exact ⟨by decide, by decide⟩

theorem dumpsArr_tame : ∀ (es : List Json), ∀ c ∈ dumpsArr es, c ≠ '\r' ∧ c.toNat < 128
  | [] => by intro c hc; cases hc
  | [e] => by
      intro c hc
      exact dumpsV_tame e c hc
  | e :: e2 :: es => by
      intro c hc
      rw [show dumpsArr (e :: e2 :: es) =
        dumpsV e ++ ',' :: ' ' :: dumpsArr (e2 :: es) from rfl] at hc
      rcases List.mem_append.mp hc with h | h
      · exact dumpsV_tame e c h
      rcases List.mem_cons.mp h with rfl | h
      · exact ⟨by decide, by decide⟩
      rcases List.mem_cons.mp h with rfl | h
      · exact ⟨by decide, by decide⟩
      · exact dumpsArr_tame (e2 :: es) c h

theorem dumpsObj_tame :
    ∀ (kvs : List (List Char × Json)), ∀ c ∈ dumpsObj kvs, c ≠ '\r' ∧ c.toNat < 128
  | [] => by intro c hc; cases hc
  | [(k, v)] => by
      intro c hc
      rw [show dumpsObj [(k, v)] =
        ('"' :: escStr k) ++ ('"' :: ':' :: ' ' :: dumpsV v) from rfl] at hc
      rcases List.mem_append.mp hc with h | h
      · rcases List.mem_cons.mp h with rfl | h
        · exact ⟨by decide, by decide⟩
        · exact escStr_tame k c h
      · rcases List.mem_cons.mp h with rfl | h
        · exact ⟨by decide, by decide⟩
        rcases List.mem_cons.mp h with rfl | h
        · exact ⟨by decide, by decide⟩
        rcases List.mem_cons.mp h with rfl | h
        · exact ⟨by decide, by decide⟩
        · exact dumpsV_tame v c h
  | (k, v) :: (k2, v2) :: kvs => by
      intro c hc
      rw [show dumpsObj ((k, v) :: (k2, v2) :: kvs) =
        ('"' :: escStr k) ++ (('"' :: ':' :: ' ' :: dumpsV v) ++
          (',' :: ' ' :: dumpsObj ((k2, v2) :: kvs))) from by simp [dumpsObj]] at hc
      rcases List.mem_append.mp hc with h | h
      · rcases List.mem_cons.mp h with rfl | h
        · exact ⟨by decide, by decide⟩
        · exact escStr_tame k c h
      rcases List.mem_append.mp h with h2 | h2
      · rcases List.mem_cons.mp h2 with rfl | h2
        · exact ⟨by decide, by decide⟩
        rcases List.mem_cons.mp h2 with rfl | h2
        · exact ⟨by decide, by decide⟩
        rcases List.mem_cons.mp h2 with rfl | h2
        · exact ⟨by decide, by decide⟩
        · exact dumpsV_tame v c h2
      · rcases List.mem_cons.mp h2 with rfl | h2
        · exact ⟨by decide, by decide⟩
        rcases List.mem_cons.mp h2 with rfl | h2
        · exact ⟨by decide, by decide⟩
        · exact dumpsObj_tame ((k2, v2) :: kvs) c h2

end

theorem dumpsV_noCR (v : Json) : '\r' ∉ dumpsV v := by
  intro h
  exact (dumpsV_tame v '\r' h).1 rfl

/-- The serializer emits printable ASCII only (`ensure_ascii=True`); this
is what makes one `Char` per byte an exact byte-string model and makes the
`Content-Length` count (characters here, bytes in Python) agree. -/
theorem dumpsV_ascii (v : Json) : asciiOnly (dumpsV v) = true := by
  rw [asciiOnly, List.all_eq_true]
  intro c hc
  simpa using (dumpsV_tame v c hc).2

/-! ## `objSet` preservation lemmas -/

theorem jlookup_objSet (m : List (List Char × Json)) (k : List Char) (v : Json) :
    jlookup (objSet m k v) k = some v := by
  induction m with
  | nil =>
      show (if k = k then some v else jlookup [] k) = some v
      simp
  | cons p rest ih =>
      obtain ⟨k', v'⟩ := p
      by_cases h : k' = k
      · simp [objSet, jlookup, h]
      · simp [objSet, jlookup, h, ih]

theorem keyMem_objSet (m : List (List Char × Json)) (a k : List Char) (v : Json) :
    keyMem a (objSet m k v) = (keyMem a m || decide (k = a)) := by
  induction m with
  | nil =>
      show (decide (k = a) || false) = (false || decide (k = a))
      cases decide (k = a) <;> rfl
  | cons p rest ih =>
      obtain ⟨k', v'⟩ := p
      by_cases h : k' = k
      · subst h
        simp only [objSet, eq_self_iff_true, if_true]
        show (decide (k' = a) || keyMem a rest) =
          ((decide (k' = a) || keyMem a rest) || decide (k' = a))
        cases decide (k' = a) <;> cases keyMem a rest <;> rfl
      · simp only [objSet, if_neg h]
        show (decide (k' = a) || keyMem a (objSet rest k v)) =
          ((decide (k' = a) || keyMem a rest) || decide (k = a))
        rw [ih]
        cases decide (k' = a) <;> simp

theorem nodupKeys_objSet {m : List (List Char × Json)} (k : List Char) (v : Json)
    (h : nodupKeys m = true) : nodupKeys (objSet m k v) = true := by
  induction m with
  | nil => simp [objSet, nodupKeys, keyMem]
  | cons p rest ih =>
      obtain ⟨k', v'⟩ := p
      simp only [nodupKeys, Bool.and_eq_true, Bool.not_eq_true'] at h
      obtain ⟨hkm, hnd⟩ := h
      by_cases he : k' = k
      · subst he
        simp only [objSet, if_pos rfl]
        show (!keyMem k' rest && nodupKeys rest) = true
        simp [hkm, hnd]
      · simp only [objSet, if_neg he]
        show (!keyMem k' (objSet rest k v) && nodupKeys (objSet rest k v)) = true
        rw [keyMem_objSet, hkm, ih hnd]
        simp [Ne.symm he]

theorem wfFields_objSet {m : List (List Char × Json)} (k : List Char) {v : Json}
    (hf : wfFields m = true) (hv : wfJson v = true) :
    wfFields (objSet m k v) = true := by
  induction m with
  | nil =>
      show (wfJson v && wfFields []) = true
      rw [hv]
      rfl
  | cons p rest ih =>
      obtain ⟨k', v'⟩ := p
      have h1 : wfJson v' = true ∧ wfFields rest = true := by
        have : wfFields ((k', v') :: rest) = (wfJson v' && wfFields rest) := rfl
        rw [this] at hf
        simpa using hf
      by_cases he : k' = k
      · simp only [objSet, if_pos he]
        show (wfJson v && wfFields rest) = true
        simp [hv, h1.2]
      · simp only [objSet, if_neg he]
        show (wfJson v' && wfFields (objSet rest k v)) = true
        simp [h1.1, ih h1.2]

theorem wfJson_objSet {m : List (List Char × Json)} (k : List Char) {v : Json}
    (h : wfJson (.obj m) = true) (hv : wfJson v = true) :
    wfJson (.obj (objSet m k v)) = true := by
  simp only [wfJson, Bool.and_eq_true] at h ⊢
  exact ⟨nodupKeys_objSet k v h.1, wfFields_objSet k h.2 hv⟩

/-! ## `from_bytes` on well-formed frames -/

theorem from_bytes_frame (h c : List Char) (hCRh : '\r' ∉ h) (hCRc : '\r' ∉ c)
    (hA : asciiOnly h = true) (hCL : searchCL h = some c.length) :
    RPCMessage.from_bytes (h ++ sepL ++ c) =
      (match loads c with
       | some (.obj kvs) =>
           if jlookup kvs jsonrpcKey = some (.str verStr) then .ok kvs
           else .error .invalidMessage
       | _ => .error .invalidMessage) := by
  rw [RPCMessage.from_bytes, splitFrameSep_frame hCRh hCRc]
  simp only [hA, hCL, eq_self_iff_true, if_true]
  rw [if_neg (lt_irrefl c.length), if_neg (lt_irrefl c.length)]

theorem from_bytes_overflow (h c : List Char) (hCRh : '\r' ∉ h) (hCRc : '\r' ∉ c)
    (hA : asciiOnly h = true) {N : Nat} (hCL : searchCL h = some N)
    (hlt : N < c.length) :
    RPCMessage.from_bytes (h ++ sepL ++ c) = .error .contentOverflow := by
  rw [RPCMessage.from_bytes, splitFrameSep_frame hCRh hCRc]
  have h1 : ¬(c.length < N) := by omega
  simp only [hA, hCL, eq_self_iff_true, if_true]
  rw [if_neg h1, if_pos hlt]

theorem clPre_dumpNat_noCR (n : Nat) : '\r' ∉ clPre ++ dumpNat n := by
  intro hmem
  rcases List.mem_append.mp hmem with h | h
  · revert h
    decide
  · exact (dumpNat_tame n '\r' h).1 rfl

theorem clPre_dumpNat_ascii (n : Nat) : asciiOnly (clPre ++ dumpNat n) = true := by
  rw [asciiOnly, List.all_eq_true]
  intro c hc
  rcases List.mem_append.mp hc with h | h
  · fin_cases h <;> decide
  · simpa using (dumpNat_tame n c h).2

/-- Round-trip through the wire format: decoding an encoded message yields
exactly the original dict with its `jsonrpc` field set to `"2.0"`. -/
theorem from_bytes_to_bytes (m : RPCMsg) (hwf : wfJson (.obj m) = true) :
    RPCMessage.from_bytes (RPCMessage.to_bytes m) =
      .ok (objSet m jsonrpcKey (.str verStr)) := by
  have hwf' : wfJson (.obj (objSet m jsonrpcKey (.str verStr))) = true :=
    wfJson_objSet jsonrpcKey hwf rfl
  have h1 : RPCMessage.to_bytes m =
      (clPre ++ dumpNat (dumpsV (.obj (objSet m jsonrpcKey (.str verStr)))).length) ++
        sepL ++ dumpsV (.obj (objSet m jsonrpcKey (.str verStr))) := rfl
  rw [h1, from_bytes_frame _ _ (clPre_dumpNat_noCR _)
    (dumpsV_noCR _) (clPre_dumpNat_ascii _) (searchCL_dumpNat _),
    loads_dumps _ hwf']
  simp [jlookup_objSet]

/-! ## `Stream.get_content` behaviour -/

theorem put_flatten (s : StreamSt) (p : List Char) :
    (s.put p).buffer.flatten = s.buffer.flatten ++ p := by
  simp [StreamSt.put]

theorem get_content_eof {s : StreamSt} (h : s.buffer.flatten = []) :
    s.get_content = (GetResult.eofError, s) := by
  simp [StreamSt.get_content, h]

theorem frame_ne_nil (h body' : List Char) : h ++ sepL ++ body' ≠ [] := by
  simp [sepL]

theorem frame_take_header (h body' : List Char) :
    (h ++ sepL ++ body').take h.length = h := by
  rw [List.append_assoc, List.take_left]

theorem frame_drop_start (h body' : List Char) :
    (h ++ sepL ++ body').drop (h.length + 4) = body' := by
  rw [List.append_assoc]
  have e : (h ++ (sepL ++ body')).drop (h.length + 4) = (sepL ++ body').drop 4 :=
    List.drop_append 4
  simp only [sepL] at e ⊢
  exact e

theorem frame_drop_end (h body' : List Char) (N : Nat) :
    (h ++ sepL ++ body').drop (h.length + 4 + N) = body'.drop N := by
  have e1 : h ++ sepL ++ body' = (h ++ sepL) ++ body' := by simp
  have e2 : h.length + 4 + N = (h ++ sepL).length + N := by simp [sepL]
  rw [e1, e2, List.drop_append N]

theorem get_content_complete (s : StreamSt) (h body' : List Char) (N : Nat)
    (hflat : s.buffer.flatten = h ++ sepL ++ body')
    (hCR : '\r' ∉ h) (hA : asciiOnly h = true) (hCL : searchCL h = some N)
    (hlen : N ≤ body'.length) :
    s.get_content = (GetResult.ok (body'.take N), ⟨[body'.drop N]⟩) := by
  have hocc := firstOcc_boundary hCR body'
  have hlt : ¬((body'.take N).length < N) := by
    simp [List.length_take]
    omega
  simp only [StreamSt.get_content, hflat, hocc, frame_take_header, hA,
    frame_drop_start, hCL, if_true, eq_self_iff_true]
  rw [if_neg (frame_ne_nil h body'), if_neg hlt]
  have : h.length + 4 + N = h.length + 4 + N := rfl
  rw [frame_drop_end h body' N]

theorem get_content_incomplete (s : StreamSt) (h part : List Char) (N : Nat)
    (hflat : s.buffer.flatten = h ++ sepL ++ part)
    (hCR : '\r' ∉ h) (hA : asciiOnly h = true) (hCL : searchCL h = some N)
    (hlen : part.length < N) :
    s.get_content = (GetResult.contentIncomplete, s) := by
  have hocc := firstOcc_boundary hCR part
  have hlt : (part.take N).length < N := by
    simp [List.length_take]
    omega
  simp only [StreamSt.get_content, hflat, hocc, frame_take_header, hA,
    frame_drop_start, hCL, if_true, eq_self_iff_true]
  rw [if_neg (frame_ne_nil h part), if_pos hlt]

theorem prefix_decomp {a X hh body : List Char}
    (he : a ++ X = hh ++ body) (hlen : hh.length ≤ a.length) :
    a = hh ++ a.drop hh.length ∧ a.drop hh.length ++ X = body := by
  have ht : a.take hh.length = hh := by
    have e := congrArg (List.take hh.length) he
    rw [List.take_append_of_le_length hlen, List.take_left] at e
    exact e
  constructor
  · conv_lhs => rw [← List.take_append_drop hh.length a]
    rw [ht]
  · have e := congrArg (List.drop hh.length) he
    rw [List.drop_append_of_le_length hlen, List.drop_left] at e
    exact e

theorem StreamSt.feed_one (s : StreamSt) (p : List Char) :
    StreamSt.feed s [p] = (s.put p).get_content := rfl

theorem StreamSt.feed_cons2 (s : StreamSt) (p q : List Char)
    (rest : List (List Char)) :
    StreamSt.feed s (p :: q :: rest) =
      match (s.put p).get_content with
      | (.contentIncomplete, s') => StreamSt.feed s' (q :: rest)
      | (.eofError, s') => StreamSt.feed s' (q :: rest)
      | other => other := rfl

/-- Chunked delivery: if the pieces concatenate (after whatever is already
buffered) to one complete frame, and every intermediate cumulative prefix is
either still empty or already covers the full header plus separator, then
`feed` returns the body with an empty chunk left buffered. -/
theorem feed_go (h body : List Char)
    (hCR : '\r' ∉ h) (hA : asciiOnly h = true)
    (hCL : searchCL h = some body.length) :
    ∀ (pieces : List (List Char)) (s : StreamSt),
      s.buffer.flatten ++ pieces.flatten = h ++ sepL ++ body →
      (∀ i, 0 < i → i < pieces.length →
        (s.buffer.flatten ++ (pieces.take i).flatten = [] ∨
         h.length + 4 ≤ (s.buffer.flatten ++ (pieces.take i).flatten).length)) →
      pieces ≠ [] →
      StreamSt.feed s pieces = (GetResult.ok body, ⟨[[]]⟩) := by
  intro pieces
  induction pieces with
  | nil => intro s _ _ hne; exact absurd rfl hne
  | cons p rest ih =>
    intro s hjoin hcond _
    have hput : (s.put p).buffer.flatten = s.buffer.flatten ++ p :=
      put_flatten s p
    cases rest with
    | nil =>
        have hfl : (s.put p).buffer.flatten = h ++ sepL ++ body := by
          rw [hput, ← hjoin]; simp
        rw [StreamSt.feed_one,
          get_content_complete (s.put p) h body body.length hfl hCR hA hCL
            (le_refl _)]
        simp
    | cons q rest' =>
        have hc1 := hcond 1 (by omega) (by simp)
        simp only [List.take_succ_cons, List.take_zero, List.flatten_cons,
          List.flatten_nil, List.append_nil] at hc1
        have hjoin' : (s.buffer.flatten ++ p) ++ (q :: rest').flatten
            = h ++ sepL ++ body := by
          rw [← hjoin]; simp
        have hcond' : ∀ i, 0 < i → i < (q :: rest').length →
            ((s.put p).buffer.flatten ++ ((q :: rest').take i).flatten = [] ∨
             h.length + 4 ≤
               ((s.put p).buffer.flatten ++
                 ((q :: rest').take i).flatten).length) := by
          intro i hi hilen
          have := hcond (i + 1) (by omega) (by simp at hilen ⊢; omega)
          simp only [List.take_succ_cons, List.flatten_cons] at this
          rw [hput, List.append_assoc]
          exact this
        have hjoin'' : (s.put p).buffer.flatten ++ (q :: rest').flatten
            = h ++ sepL ++ body := by rw [hput]; exact hjoin'
        rcases hc1 with hc1 | hc1
        · -- everything so far is empty: EOFError, keep waiting
          have hfl : (s.put p).buffer.flatten = [] := by rw [hput]; exact hc1
          rw [StreamSt.feed_cons2, get_content_eof hfl]
          exact ih (s.put p) hjoin'' hcond' (by simp)
        · -- header fully buffered: decompose the cumulative prefix
          have hlen4 : (h ++ sepL).length ≤ (s.buffer.flatten ++ p).length := by
            simp [sepL]; simp [sepL] at hc1; omega
          have hd := prefix_decomp hjoin' hlen4
          have hsl : (h ++ sepL).length = h.length + 4 := by simp [sepL]
          rw [hsl] at hd
          rcases hd with ⟨e1, e2⟩
          by_cases hX : (q :: rest').flatten = []
          · -- the rest of the pieces are all empty: this prefix is the frame
            have hbody : (s.buffer.flatten ++ p).drop (h.length + 4) = body := by
              rw [hX, List.append_nil] at e2; exact e2
            have hfl : (s.put p).buffer.flatten = h ++ sepL ++ body := by
              rw [hput, e1, hbody]
            rw [StreamSt.feed_cons2,
              get_content_complete (s.put p) h body body.length hfl hCR hA hCL
                (le_refl _)]
            simp
          · -- a strict prefix of the body: ContentIncomplete, keep feeding
            have hplen : ((s.buffer.flatten ++ p).drop (h.length + 4)).length
                < body.length := by
              have := congrArg List.length e2
              simp only [List.length_append] at this
              have hXpos : 0 < (q :: rest').flatten.length :=
                List.length_pos.mpr hX
              omega
            have hfl : (s.put p).buffer.flatten
                = h ++ sepL ++ (s.buffer.flatten ++ p).drop (h.length + 4) := by
              rw [hput]; conv_lhs => rw [e1]
            rw [StreamSt.feed_cons2,
              get_content_incomplete (s.put p) h _ body.length hfl hCR hA hCL
                hplen]
            exact ih (s.put p) hjoin'' hcond' (by simp)

/-! ## Transport-layer support lemmas -/

theorem jdictSet_absent {α : Type} (m : List (Json × α)) (k : Json) (v : α)
    (habs : ∀ p ∈ m, p.1 ≠ k) : jdictSet m k v = m ++ [(k, v)] := by
  induction m with
  | nil => rfl
  | cons p rest ih =>
      obtain ⟨k', v'⟩ := p
      have hk : k' ≠ k := habs (k', v') (List.mem_cons_self _ _)
      rw [jdictSet, if_neg hk, ih (fun q hq => habs q (List.mem_cons_of_mem _ hq))]
      rfl

theorem jdictPop_append (rm : List (Json × Json)) (k v : Json)
    (habs : ∀ p ∈ rm, p.1 ≠ k) :
    jdictPop (rm ++ [(k, v)]) k = some (v, rm) := by
  induction rm with
  | nil => simp [jdictPop]
  | cons p rest ih =>
      obtain ⟨k', v'⟩ := p
      have hk : k' ≠ k := habs (k', v') (List.mem_cons_self _ _)
      rw [List.cons_append, jdictPop, if_neg hk,
        ih (fun q hq => habs q (List.mem_cons_of_mem _ hq))]
      rfl

theorem jdictGet_absent (m : List (Json × Json)) (k : Json)
    (habs : ∀ p ∈ m, p.1 ≠ k) : jdictGet m k = none := by
  induction m with
  | nil => rfl
  | cons p rest ih =>
      obtain ⟨k', v'⟩ := p
      have hk : k' ≠ k := habs (k', v') (List.mem_cons_self _ _)
      rw [jdictGet, if_neg hk]
      exact ih (fun q hq => habs q (List.mem_cons_of_mem _ hq))

theorem sendCancels_map (m : List (Json × Json)) :
    StdIOSt.sendCancels m = m.map (fun p => RPCMessage.cancel_request p.1) := by
  induction m with
  | nil => rfl
  | cons p rest ih =>
      obtain ⟨k', v'⟩ := p
      rw [StdIOSt.sendCancels, ih]
      rfl

theorem afterCalls_id (n : Nat) :
    (LSPClientSt.afterCalls n).request_id = n := by
  induction n with
  | zero => rfl
  | succ n ih =>
      rw [LSPClientSt.afterCalls]
      simp [LSPClientSt.get_request_id, ih]

/-! ## The claims -/

/-- C1, counterexample to the claim as stated: one valid frame split inside
the `Content-Length` header is decoded when fed whole, but feeding the two
pieces yields `InvalidMessage` with the buffered bytes discarded — a
`get_content` call before the separator has arrived is a fatal error, not a
non-error wait-for-more condition. -/
theorem stream_split_header_counterexample :
    StreamSt.feed ⟨[]⟩ ["Content-Le".data, "ngth: 2\r\n\r\n\x7b\x7d".data]
      = (GetResult.invalidMessage, (⟨[]⟩ : StreamSt)) ∧
    StreamSt.feed ⟨[]⟩ ["Content-Length: 2\r\n\r\n\x7b\x7d".data]
      = (GetResult.ok ['\x7b', '\x7d'], (⟨[[]]⟩ : StreamSt)) := by
  constructor <;> decide

/-- C1 (amended): chunked delivery yields the same outcome as whole-frame
delivery provided every intermediate `get_content` call happens while the
buffer is either still empty or already holds the complete header and the
`\r\n\r\n` separator; a call on a non-empty buffer without the full
separator instead raises `InvalidMessage` and discards the buffer. -/
theorem stream_chunked_delivery (h body : List Char) (pieces : List (List Char))
    (hCR : '\r' ∉ h) (hA : asciiOnly h = true)
    (hCL : searchCL h = some body.length)
    (hjoin : pieces.flatten = h ++ sepL ++ body)
    (hcond : ∀ i, 0 < i → i < pieces.length →
      ((pieces.take i).flatten = [] ∨
       h.length + 4 ≤ ((pieces.take i).flatten).length))
    (hne : pieces ≠ []) :
    StreamSt.feed ⟨[]⟩ pieces = StreamSt.feed ⟨[]⟩ [h ++ sepL ++ body] := by
  have e1 := feed_go h body hCR hA hCL pieces ⟨[]⟩ (by simpa using hjoin)
    (by intro i hi hilen; simpa using hcond i hi hilen) hne
  have e2 := feed_go h body hCR hA hCL [h ++ sepL ++ body] ⟨[]⟩ (by simp)
    (by intro i hi hilen; exfalso; simp at hilen; omega) (by simp)
  rw [e1, e2]

/-- C1 witness: the amended theorem at a concrete frame split at the body
boundary. -/
theorem stream_chunked_delivery_witness :
    StreamSt.feed ⟨[]⟩ ["Content-Length: 2\r\n\r\n\x7b".data, "\x7d".data]
      = StreamSt.feed ⟨[]⟩ ["Content-Length: 2".data ++ sepL ++ "\x7b\x7d".data] :=
  stream_chunked_delivery "Content-Length: 2".data "\x7b\x7d".data
    ["Content-Length: 2\r\n\r\n\x7b".data, "\x7d".data]
    (by decide) (by decide) (by decide) (by decide)
    (by
      intro i hi hilen
      have hone : i = 1 := by simp at hilen; omega
      subst hone
      right
      decide)
    (by decide)

/-- C2: framing round-trip — decoding the bytes produced by encoding a
well-formed message yields exactly the message with its `jsonrpc` field set
to `"2.0"` (in-place if the key was present, appended otherwise; all other
fields and their order are untouched). -/
theorem framing_round_trip (m : RPCMsg) (hwf : wfJson (.obj m) = true) :
    RPCMessage.from_bytes (RPCMessage.to_bytes m)
      = .ok (objSet m jsonrpcKey (.str verStr)) :=
  from_bytes_to_bytes m hwf

/-- C2 witness: the round-trip at a concrete request message. -/
theorem framing_round_trip_witness :
    RPCMessage.from_bytes (RPCMessage.to_bytes
        (RPCMessage.request (.num 1) (.str ['p', 'i', 'n', 'g']) .null))
      = .ok (objSet (RPCMessage.request (.num 1) (.str ['p', 'i', 'n', 'g']) .null)
          jsonrpcKey (.str verStr)) :=
  framing_round_trip (RPCMessage.request (.num 1) (.str ['p', 'i', 'n', 'g']) .null)
    (by decide)

/-- C3: incomplete tolerance — with the header complete and the declared
length exceeding the available body bytes, `get_content` raises
`ContentIncomplete` leaving the buffer exactly as it was, and once the
missing bytes are `put` the next `get_content` returns exactly the declared
body with nothing lost. -/
theorem incomplete_tolerance (s : StreamSt) (h part extra : List Char) (N : Nat)
    (hflat : s.buffer.flatten = h ++ sepL ++ part)
    (hCR : '\r' ∉ h) (hA : asciiOnly h = true) (hCL : searchCL h = some N)
    (hlen : part.length < N) (hN : part.length + extra.length = N) :
    s.get_content = (GetResult.contentIncomplete, s) ∧
    (s.put extra).get_content = (GetResult.ok (part ++ extra), ⟨[[]]⟩) := by
  refine ⟨get_content_incomplete s h part N hflat hCR hA hCL hlen, ?_⟩
  have hflat' : (s.put extra).buffer.flatten = h ++ sepL ++ (part ++ extra) := by
    rw [put_flatten, hflat, List.append_assoc]
  have hNe : (part ++ extra).length = N := by simp; omega
  have hle : N ≤ (part ++ extra).length := by omega
  rw [get_content_complete (s.put extra) h (part ++ extra) N hflat' hCR hA hCL hle,
    ← hNe, List.take_length, List.drop_length]

/-- C3 witness: a concrete frame delivered three body bytes short, then
completed. -/
theorem incomplete_tolerance_witness :
    StreamSt.get_content ⟨["Content-Length: 5\r\n\r\nhe".data]⟩
      = (GetResult.contentIncomplete, (⟨["Content-Length: 5\r\n\r\nhe".data]⟩ : StreamSt)) ∧
    (StreamSt.put ⟨["Content-Length: 5\r\n\r\nhe".data]⟩ "llo".data).get_content
      = (GetResult.ok ("he".data ++ "llo".data), (⟨[[]]⟩ : StreamSt)) :=
  incomplete_tolerance ⟨["Content-Length: 5\r\n\r\nhe".data]⟩
    "Content-Length: 5".data "he".data "llo".data 5
    (by decide) (by decide) (by decide) (by decide) (by decide) (by decide)

/-- C4: pipelining — two valid frames concatenated into a single `put`
yield, over two successive `get_content` calls, exactly the two bodies in
order, and after the first call the buffer holds exactly the bytes beyond
the first frame's end. -/
theorem stream_pipelining (h1 b1 h2 b2 : List Char)
    (hCR1 : '\r' ∉ h1) (hA1 : asciiOnly h1 = true)
    (hCL1 : searchCL h1 = some b1.length)
    (hCR2 : '\r' ∉ h2) (hA2 : asciiOnly h2 = true)
    (hCL2 : searchCL h2 = some b2.length) :
    (StreamSt.put ⟨[]⟩ ((h1 ++ sepL ++ b1) ++ (h2 ++ sepL ++ b2))).get_content
      = (GetResult.ok b1, ⟨[h2 ++ sepL ++ b2]⟩) ∧
    StreamSt.get_content ⟨[h2 ++ sepL ++ b2]⟩ = (GetResult.ok b2, ⟨[[]]⟩) := by
  constructor
  · have hflat : (StreamSt.put ⟨[]⟩
        ((h1 ++ sepL ++ b1) ++ (h2 ++ sepL ++ b2))).buffer.flatten
        = h1 ++ sepL ++ (b1 ++ (h2 ++ sepL ++ b2)) := by
      rw [put_flatten]; simp
    rw [get_content_complete _ h1 (b1 ++ (h2 ++ sepL ++ b2)) b1.length hflat
      hCR1 hA1 hCL1 (by simp), List.take_left, List.drop_left]
  · have hflat : (⟨[h2 ++ sepL ++ b2]⟩ : StreamSt).buffer.flatten
        = h2 ++ sepL ++ b2 := by simp
    rw [get_content_complete _ h2 b2 b2.length hflat hCR2 hA2 hCL2 (le_refl _),
      List.take_length, List.drop_length]

/-- C4 witness: two concrete frames in one `put`. -/
theorem stream_pipelining_witness :
    (StreamSt.put ⟨[]⟩ (("Content-Length: 2".data ++ sepL ++ "ab".data)
        ++ ("Content-Length: 3".data ++ sepL ++ "xyz".data))).get_content
      = (GetResult.ok "ab".data,
         ⟨["Content-Length: 3".data ++ sepL ++ "xyz".data]⟩) ∧
    StreamSt.get_content ⟨["Content-Length: 3".data ++ sepL ++ "xyz".data]⟩
      = (GetResult.ok "xyz".data, (⟨[[]]⟩ : StreamSt)) :=
  stream_pipelining "Content-Length: 2".data "ab".data
    "Content-Length: 3".data "xyz".data
    (by decide) (by decide) (by decide) (by decide) (by decide) (by decide)

/-- C5, counterexample to the claim as stated: a buffer declaring
`Content-Length: 5` but holding 8 body bytes (the excess aligning to no
header) makes `get_content` return the five declared bytes and retain the
excess as the new buffer — no `ContentOverflow`, no reset.  The `Stream`
layer never raises `ContentOverflow` at all. -/
theorem overflow_stream_counterexample :
    StreamSt.get_content ⟨["Content-Length: 5\r\n\r\nhelloXYZ".data]⟩
      = (GetResult.ok "hello".data, (⟨["XYZ".data]⟩ : StreamSt)) := by
  decide

/-- C5 (amended): overflow detection lives in `RPCMessage.from_bytes`, not
in the `Stream`: on a frame whose body region exceeds the declared length
the stream decoder returns the declared bytes and retains the excess, while
`from_bytes` applied to the same complete frame raises `ContentOverflow`
(it is stateless, so no buffer is involved). -/
theorem overflow_detection_amended (h body extra : List Char)
    (hCR : '\r' ∉ h) (hA : asciiOnly h = true)
    (hCL : searchCL h = some body.length)
    (hCRb : '\r' ∉ body) (hCRx : '\r' ∉ extra) (hx : extra ≠ []) :
    StreamSt.get_content ⟨[h ++ sepL ++ (body ++ extra)]⟩
      = (GetResult.ok body, ⟨[extra]⟩) ∧
    RPCMessage.from_bytes (h ++ sepL ++ (body ++ extra))
      = .error RPCMessage.DecodeErr.contentOverflow := by
  constructor
  · have hflat : (⟨[h ++ sepL ++ (body ++ extra)]⟩ : StreamSt).buffer.flatten
        = h ++ sepL ++ (body ++ extra) := by simp
    rw [get_content_complete _ h (body ++ extra) body.length hflat hCR hA hCL
      (by simp), List.take_left, List.drop_left]
  · have hCRbx : '\r' ∉ body ++ extra := by
      intro hmem
      rcases List.mem_append.mp hmem with hm | hm
      · exact hCRb hm
      · exact hCRx hm
    exact from_bytes_overflow h (body ++ extra) hCR hCRbx hA hCL
      (by have hp := List.length_pos.mpr hx; simp only [List.length_append]; omega)

/-- C5 witness: the amended theorem at the concrete overflowing frame. -/
theorem overflow_detection_witness :
    StreamSt.get_content
        ⟨["Content-Length: 5".data ++ sepL ++ ("hello".data ++ "XYZ".data)]⟩
      = (GetResult.ok "hello".data, ⟨["XYZ".data]⟩) ∧
    RPCMessage.from_bytes
        ("Content-Length: 5".data ++ sepL ++ ("hello".data ++ "XYZ".data))
      = .error RPCMessage.DecodeErr.contentOverflow :=
  overflow_detection_amended "Content-Length: 5".data "hello".data "XYZ".data
    (by decide) (by decide) (by decide) (by decide) (by decide) (by decide)

/-- C6, counterexample to the claim as stated: a complete frame whose body
is the bare object with only a `jsonrpc` field — no `id`, no `method`, no
`result`, no `error`, so none of the three allowed message shapes — is
accepted by `from_bytes`, not rejected as `InvalidMessage`. -/
theorem decode_shape_counterexample :
    RPCMessage.from_bytes
        "Content-Length: 18\r\n\r\n\x7b\x22jsonrpc\x22: \x222.0\x22\x7d".data
      = Except.ok [(jsonrpcKey, Json.str verStr)] := by
  rfl

/-- C6 (amended): on a complete frame `from_bytes` validates exactly two
things — the body parses as JSON to an object and its `jsonrpc` field
equals `"2.0"`; any such object is accepted as-is, with no validation of
the id/method/result/error field combination. -/
theorem decode_validation_amended (h c : List Char)
    (hCRh : '\r' ∉ h) (hCRc : '\r' ∉ c)
    (hA : asciiOnly h = true) (hCL : searchCL h = some c.length) :
    RPCMessage.from_bytes (h ++ sepL ++ c) =
      (match loads c with
       | some (.obj kvs) =>
           if jlookup kvs jsonrpcKey = some (.str verStr) then .ok kvs
           else .error .invalidMessage
       | _ => .error .invalidMessage) :=
  from_bytes_frame h c hCRh hCRc hA hCL

/-- C6 witness: the amended characterization at a concrete frame whose body
is valid JSON but not an object. -/
theorem decode_validation_witness :
    RPCMessage.from_bytes ("Content-Length: 4".data ++ sepL ++ "null".data) =
      (match loads "null".data with
       | some (.obj kvs) =>
           if jlookup kvs jsonrpcKey = some (.str verStr) then .ok kvs
           else .error .invalidMessage
       | _ => .error .invalidMessage) :=
  decode_validation_amended "Content-Length: 4".data "null".data
    (by decide) (by decide) (by decide) (by decide)

/-- C7: request/response correlation — after `request()` stores `id ↦
method` for a message carrying both fields, handling a received message
with that id and a falsy `method` invokes exactly the handler registered
under the stored method, passes it the full received message, and leaves a
request map without the id (the map reverts to its prior id-free state). -/
theorem request_response_correlation {H : Type} (st : StdIOSt H)
    (msg resp : RPCMsg) (i m : Json) (handler : H)
    (hid : jlookup msg idKey = some i)
    (hmeth : jlookup msg methodKey = some m)
    (habs : ∀ p ∈ st.request_map, p.1 ≠ i)
    (hreg : jdictGet st.command_map m = some handler)
    (hrid : jget resp idKey = i)
    (hrm : jsonFalsy (jget resp methodKey) = true) :
    StdIOSt.request st msg
      = some ({ st with request_map := st.request_map ++ [(i, m)] }, msg) ∧
    StdIOSt.handle_received_message
        { st with request_map := st.request_map ++ [(i, m)] } resp
      = .ok (handler, resp, st) ∧
    jdictGet st.request_map i = none := by
  refine ⟨?_, ?_, jdictGet_absent _ _ habs⟩
  · simp only [StdIOSt.request, hid, hmeth, jdictSet_absent _ _ _ habs]
  · simp only [StdIOSt.handle_received_message, hrm, hrid, if_true,
      jdictPop_append _ _ _ habs, hreg]

/-- C7 witness: a concrete hover-style request answered by a response
carrying its id and no method. -/
theorem request_response_correlation_witness :
    StdIOSt.request (H := Nat) ⟨[(Json.str ['h', 'v'], 5)], [(Json.num 9, Json.str ['x'])]⟩
        (RPCMessage.request (.num 1) (.str ['h', 'v']) .null)
      = some (⟨[(Json.str ['h', 'v'], 5)],
          [(Json.num 9, Json.str ['x'])] ++ [(Json.num 1, Json.str ['h', 'v'])]⟩,
          RPCMessage.request (.num 1) (.str ['h', 'v']) .null) ∧
    StdIOSt.handle_received_message (H := Nat)
        ⟨[(Json.str ['h', 'v'], 5)],
          [(Json.num 9, Json.str ['x'])] ++ [(Json.num 1, Json.str ['h', 'v'])]⟩
        (RPCMessage.response (.num 1) (some (.str ['r'])) none)
      = .ok (5, RPCMessage.response (.num 1) (some (.str ['r'])) none,
          ⟨[(Json.str ['h', 'v'], 5)], [(Json.num 9, Json.str ['x'])]⟩) ∧
    jdictGet [(Json.num 9, Json.str ['x'])] (Json.num 1) = none :=
  request_response_correlation ⟨[(Json.str ['h', 'v'], 5)], [(Json.num 9, Json.str ['x'])]⟩
    (RPCMessage.request (.num 1) (.str ['h', 'v']) .null)
    (RPCMessage.response (.num 1) (some (.str ['r'])) none)
    (.num 1) (.str ['h', 'v']) 5
    (by decide) (by decide) (by decide) (by decide) (by decide) (by decide)

/-- C8, counterexample to the claim as stated: `cancel_request` takes no
request id at all — with two pending entries it sends a cancellation
notification for each of them and empties the whole request map, rather
than removing one target id and leaving the other entry in place. -/
theorem cancel_request_counterexample :
    StdIOSt.cancel_request (H := Nat)
        ⟨[], [(Json.num 1, Json.str ['a']), (Json.num 2, Json.str ['b'])]⟩
      = ([RPCMessage.cancel_request (Json.num 1),
          RPCMessage.cancel_request (Json.num 2)], ⟨[], []⟩) := rfl

/-- C8 (amended): `cancel_request` cancels everything — it sends one
`$/cancelRequest` notification with params `\x7b"id": <id>\x7d` for every
pending entry of the request map, in table order, and replaces the map with
the empty one (a no-op without error when the map is already empty). -/
theorem cancel_request_amended {H : Type} (st : StdIOSt H) :
    StdIOSt.cancel_request st
      = (st.request_map.map (fun p =>
            [(methodKey, Json.str cancelMethod),
             (paramsKey, Json.obj [(idKey, p.1)])]),
         { st with request_map := [] }) := by
  rw [StdIOSt.cancel_request, sendCancels_map]
  rfl

/-- C9: request-id generation — the first call after construction (or after
`reset_session`) returns 1, the call made after `n` prior calls returns
`n + 1` (exactly one more than the previous call's value, hence unique and
strictly increasing), and every returned id is positive. -/
theorem request_id_generation (c : LSPClientSt) (n : Nat) :
    (LSPClientSt.initial.get_request_id).1 = 1 ∧
    ((LSPClientSt.reset_session c).get_request_id).1 = 1 ∧
    ((LSPClientSt.afterCalls n).get_request_id).1 = n + 1 ∧
    ((LSPClientSt.afterCalls (n + 1)).get_request_id).1
      = ((LSPClientSt.afterCalls n).get_request_id).1 + 1 ∧
    0 < ((LSPClientSt.afterCalls n).get_request_id).1 := by
  refine ⟨rfl, rfl, ?_, ?_, ?_⟩
  · simp [LSPClientSt.get_request_id, afterCalls_id]
  · simp [LSPClientSt.get_request_id, afterCalls_id]
  · simp [LSPClientSt.get_request_id]

/-- C10: response-constructor shape — `response` with `result=None` and
`error=None` yields a message with the id but neither a `result` nor an
`error` field, and with both non-`None` it yields a message containing both
fields: construction enforces no exactly-one-of-result/error shape. -/
theorem response_construction_shape (i r e : Json) :
    RPCMessage.response i none none = [(idKey, i)] ∧
    jlookup (RPCMessage.response i none none) resultKey = none ∧
    jlookup (RPCMessage.response i none none) errorKey = none ∧
    RPCMessage.response i (some r) (some e)
      = [(idKey, i), (resultKey, r), (errorKey, e)] :=
  ⟨rfl, rfl, rfl, rfl⟩
